import Mathlib

/-!
# Verification of the party-poker engine against its specification

This file gives a shallow embedding, in Lean 4, of the poker engine of the
`party-poker` repository and settles the frozen claims about it.

Embedded code:
* `src/backend/src/types/index.ts` — the card / player / game-state data model;
* `src/unnamed/part_005` (`PokerEngine.ts`) — hand evaluation, winner
  determination, pot distribution, valid actions (namespace `PokerEngine`);
* `src/backend/src/game/GameManager.ts` — blinds, player actions, round
  advancement, showdown (namespace `GameManager`);
* `src/backend/src/utils/helpers.ts` — `getNextActivePlayerIndex`;
* `src/unnamed/part_011` (`PokerEngine.swift`) — the standalone side-pot
  layering helper `calculateSidePots` (namespace `PokerEngineSwift`).

Conventions of the embedding:
* JavaScript numbers holding chip amounts are modelled as `Int` (the code
  performs ordinary additions/subtractions with no clamping).
* Card ranks are `Nat` (2..14, Ace = 14) and suits are `Nat`
  (0 = hearts, 1 = diamonds, 2 = clubs, 3 = spades); the TypeScript code only
  ever compares suits for equality.
* `Array.prototype.sort` (stable in V8, the runtime used) and Swift's
  `sorted(by:)` are modelled by the stable insertion sort `jsSort`, which
  places `x` before the first element `y` with `cmp x y ≤ 0` — exactly the
  result of a stable sort under a consistent comparator.
* JavaScript `Record<number, number>` objects keyed by integer-like keys
  enumerate their keys in ascending numeric order (`Object.keys`); `countRanks`
  therefore returns an association list sorted by ascending rank.
* `throw` is modelled with `Except`; functions that in TypeScript mutate state
  before a possible `throw` return the partially-mutated state together with
  the error message, so that "state at the moment of the throw" is preserved
  by the embedding.
* Exceptions carry the source's message strings (shortened where the source
  uses string interpolation).
-/

/-- A playing card (`Card` in `types/index.ts`): a rank 2..14 and a suit. -/
structure Card where
  rank : Nat
  suit : Nat
deriving DecidableEq, Repr, Inhabited

/-- `PlayerAction` enum from `types/index.ts`. -/
inductive PlayerAction where
  | fold | check | call | raise | allIn
deriving DecidableEq, Repr, Inhabited

/-- `GamePhase` enum from `types/index.ts`. -/
inductive GamePhase where
  | waiting | preFlop | flop | turn | river | showdown | handComplete
deriving DecidableEq, Repr, Inhabited

/-- An evaluated hand (`Hand` in `types/index.ts`): `rank` is the numeric
`HandRank` (1 = HighCard .. 10 = RoyalFlush), `cards` the category-defining
(primary) cards, `kickers` the tie-break cards. -/
structure Hand where
  rank : Nat
  cards : List Card
  kickers : List Card
  description : String
deriving DecidableEq, Repr, Inhabited

/-- Numeric values of the `HandRank` enum from `types/index.ts`. -/
def HandRank.HighCard : Nat := 1
def HandRank.Pair : Nat := 2
def HandRank.TwoPair : Nat := 3
def HandRank.ThreeOfAKind : Nat := 4
def HandRank.Straight : Nat := 5
def HandRank.Flush : Nat := 6
def HandRank.FullHouse : Nat := 7
def HandRank.FourOfAKind : Nat := 8
def HandRank.StraightFlush : Nat := 9
def HandRank.RoyalFlush : Nat := 10

/-- Stable insertion of `x` into a list: `x` goes before the first `y` with
`cmp x y ≤ 0`.  Together with `jsSort` this models a stable comparison sort
(V8 `Array.prototype.sort`, Swift `sorted(by:)`). -/
def jsInsert (cmp : α → α → Int) (x : α) : List α → List α
  | [] => [x]
  | y :: ys => if cmp x y ≤ 0 then x :: y :: ys else y :: jsInsert cmp x ys

/-- Stable comparison sort, modelling `Array.prototype.sort(cmp)`. -/
def jsSort (cmp : α → α → Int) : List α → List α
  | [] => []
  | x :: xs => jsInsert cmp x (jsSort cmp xs)

namespace PokerEngine

/-- `isStraight` helper: `ranks[i] = ranks[i-1] + 1` along an
ascending-sorted list. -/
def chainAsc : List Nat → Bool
  | a :: b :: rest => b == a + 1 && chainAsc (b :: rest)
  | _ => true

/-- `PokerEngine.isStraight` (part_005): the distinct ranks, sorted
ascending, are 5 consecutive values (wheel excluded). -/
def isStraight (ranks : List Nat) : Bool :=
  let sortedRanks := jsSort (fun (a b : Nat) => (a : Int) - b) ranks.dedup
  sortedRanks.length == 5 && chainAsc sortedRanks

/-- `PokerEngine.isWheelStraight` (part_005): distinct ranks sorted ascending
are exactly `[2,3,4,5,14]` (A-2-3-4-5). -/
def isWheelStraight (ranks : List Nat) : Bool :=
  jsSort (fun (a b : Nat) => (a : Int) - b) ranks.dedup == [2, 3, 4, 5, 14]

/-- `PokerEngine.arrangeWheelStraight` (part_005): sort so that the Ace goes
last and the rest descend (5-4-3-2-A). -/
def arrangeWheelStraight (cards : List Card) : List Card :=
  jsSort (fun a b =>
    if a.rank == 14 then 1
    else if b.rank == 14 then -1
    else (b.rank : Int) - a.rank) cards

/-- `PokerEngine.countRanks` (part_005): occurrence counts per rank.  The
JavaScript `Record` enumerates integer-like keys in ascending order, so the
association list is sorted by ascending rank. -/
def countRanks (ranks : List Nat) : List (Nat × Nat) :=
  (jsSort (fun (a b : Nat) => (a : Int) - b) ranks.dedup).map
    (fun r => (r, (ranks.filter (· == r)).length))

/-- One step of the `for (const rank of sortedRanks)` loop of
`separateCardsByRank`: the accumulator is (primaryCards, kickers, targetIndex). -/
def separateStep (cards : List Card) (targetCounts : List Nat)
    (acc : List Card × List Card × Nat) (rc : Nat × Nat) :
    List Card × List Card × Nat :=
  let cardsOfRank := cards.filter (fun c => c.rank == rc.1)
  if decide (acc.2.2 < targetCounts.length) && rc.2.beq (targetCounts.getD acc.2.2 0) then
    (acc.1 ++ cardsOfRank, acc.2.1, acc.2.2 + 1)
  else
    (acc.1, acc.2.1 ++ cardsOfRank, acc.2.2)

/-- `PokerEngine.separateCardsByRank` (part_005): split the 5 cards into the
category-defining cards and the kickers; both are finally sorted by rank
descending and the kickers truncated to `5 - primary.length`. -/
def separateCardsByRank (cards : List Card) (rankCounts : List (Nat × Nat))
    (targetCounts : List Nat) : List Card × List Card :=
  let sortedRanks := jsSort
    (fun a b =>
      let countDiff := (b.2 : Int) - a.2
      if countDiff ≠ 0 then countDiff else (b.1 : Int) - a.1) rankCounts
  let res := sortedRanks.foldl (separateStep cards targetCounts) ([], [], 0)
  let primaryCards := jsSort (fun a b => (b.rank : Int) - a.rank) res.1
  let kickers := jsSort (fun a b => (b.rank : Int) - a.rank) res.2.1
  (primaryCards, kickers.take (5 - primaryCards.length))

/-- `PokerEngine.evaluateExactHand` (part_005): rank exactly 5 cards.
The TypeScript function throws unless `cards.length === 5`. -/
def evaluateExactHand (cards : List Card) : Except String Hand :=
  if cards.length ≠ 5 then .error "Must evaluate exactly 5 cards"
  else
    let sortedCards := jsSort (fun a b => (b.rank : Int) - a.rank) cards
    let ranks := sortedCards.map (·.rank)
    let suits := sortedCards.map (·.suit)
    let isFlush := suits.all (fun s => s == suits.headD 0)
    let isStr := isStraight ranks
    let isWheel := isWheelStraight ranks
    let rankCounts := countRanks ranks
    let counts := jsSort (fun (a b : Nat) => (b : Int) - a) (rankCounts.map (·.2))
    if isFlush && (isStr || isWheel) then
      if ranks.headD 0 == 14 && isStr then
        .ok ⟨HandRank.RoyalFlush, sortedCards, [], "Royal Flush"⟩
      else
        .ok ⟨HandRank.StraightFlush,
          if isWheel then arrangeWheelStraight sortedCards else sortedCards,
          [], "Straight Flush"⟩
    else if counts.headD 0 == 4 then
      let pk := separateCardsByRank sortedCards rankCounts [4]
      .ok ⟨HandRank.FourOfAKind, pk.1, pk.2, "Four of a Kind"⟩
    else if counts.headD 0 == 3 && counts.getD 1 0 == 2 then
      let pk := separateCardsByRank sortedCards rankCounts [3, 2]
      .ok ⟨HandRank.FullHouse, pk.1, [], "Full House"⟩
    else if isFlush then
      .ok ⟨HandRank.Flush, sortedCards, [], "Flush"⟩
    else if isStr || isWheel then
      .ok ⟨HandRank.Straight,
        if isWheel then arrangeWheelStraight sortedCards else sortedCards,
        [], "Straight"⟩
    else if counts.headD 0 == 3 then
      let pk := separateCardsByRank sortedCards rankCounts [3]
      .ok ⟨HandRank.ThreeOfAKind, pk.1, pk.2, "Three of a Kind"⟩
    else if counts.headD 0 == 2 && counts.getD 1 0 == 2 then
      let pk := separateCardsByRank sortedCards rankCounts [2, 2]
      .ok ⟨HandRank.TwoPair, pk.1, pk.2, "Two Pair"⟩
    else if counts.headD 0 == 2 then
      let pk := separateCardsByRank sortedCards rankCounts [2]
      .ok ⟨HandRank.Pair, pk.1, pk.2, "Pair"⟩
    else
      .ok ⟨HandRank.HighCard, sortedCards.take 5, [], "High Card"⟩

/-- The card-by-card comparison loop of `PokerEngine.compareHands`:
first differing rank decides; comparison stops at the shorter list. -/
def compareCardRanks : List Card → List Card → Int
  | a :: as, b :: bs =>
    if a.rank ≠ b.rank then (a.rank : Int) - b.rank else compareCardRanks as bs
  | _, _ => 0

/-- `PokerEngine.compareHands` (part_005): positive iff `h1` beats `h2`. -/
def compareHands (h1 h2 : Hand) : Int :=
  if h1.rank ≠ h2.rank then (h1.rank : Int) - h2.rank
  else compareCardRanks (h1.cards ++ h1.kickers) (h2.cards ++ h2.kickers)

/-- `PokerEngine.getCombinations` (part_005): all `k`-element combinations.
The TypeScript recursion never reaches an empty array while `k ≤ arr.length`;
the `[] => []` clause only makes the Lean function total. -/
def getCombinations : List α → Nat → List (List α)
  | arr, k =>
    if k = 1 then arr.map (fun el => [el])
    else if k = arr.length then [arr]
    else
      match arr with
      | [] => []
      | first :: rest =>
        ((getCombinations rest (k - 1)).map (first :: ·)) ++
          getCombinations rest k

/-- The `for (const combination of allCombinations)` loop of
`PokerEngine.evaluateHand`: evaluate each combination in order, keeping the
first hand that is strictly better than the best so far. -/
def evaluateHandLoop : List (List Card) → Option Hand → Except String (Option Hand)
  | [], best => .ok best
  | c :: cs, best => do
    let hand ← evaluateExactHand c
    match best with
    | none => evaluateHandLoop cs (some hand)
    | some b =>
      if compareHands hand b > 0 then evaluateHandLoop cs (some hand)
      else evaluateHandLoop cs (some b)

/-- `PokerEngine.evaluateHand` (part_005): best 5-card hand among all 5-card
combinations; throws when fewer than 5 cards are supplied.  The final
`bestHand!` non-null assertion is modelled by the impossible `none` case. -/
def evaluateHand (cards : List Card) : Except String Hand :=
  if cards.length < 5 then .error "Need at least 5 cards to evaluate hand"
  else
    match evaluateHandLoop (getCombinations cards 5) none with
    | .ok (some h) => .ok h
    | .ok none => .error "bestHand assertion failed"
    | .error msg => .error msg

end PokerEngine

/-- Engine view of a player (`Player` in `types/index.ts`).  Fields not used
by the embedded functions (`nickname`, `position`, `isDealer`, `hasFolded`,
`socketId`) are omitted; ids are modelled as `Nat`. -/
structure Player where
  id : Nat
  chips : Int
  holeCards : List Card
  isActive : Bool
  isInHand : Bool
  currentBet : Int
  totalBet : Int
  lastAction : Option PlayerAction
  isSmallBlind : Bool
  isBigBlind : Bool
  isAllIn : Bool
deriving DecidableEq, Repr, Inhabited

/-- `GameState` from `types/index.ts` (the `players` duplicate and
`handNumber` are omitted; `winners` holds player ids). -/
structure GameState where
  phase : GamePhase
  communityCards : List Card
  pot : Int
  currentPlayerIndex : Nat
  dealerIndex : Nat
  smallBlindIndex : Nat
  bigBlindIndex : Nat
  currentBet : Int
  minRaise : Int
  isHandActive : Bool
  winners : List Nat
deriving DecidableEq, Repr, Inhabited

/-- `GameSettings` from `types/index.ts` (fields the embedded functions use). -/
structure GameSettings where
  smallBlind : Int
  bigBlind : Int
deriving DecidableEq, Repr, Inhabited

/-- A room as the `GameManager` sees it: players, game state, settings, plus
the private `deck` field the `GameManager` instance keeps alongside the room. -/
structure Room where
  players : List Player
  gameState : GameState
  settings : GameSettings
  deck : List Card
deriving DecidableEq, Repr, Inhabited

/-- `PlayerActionRequest` from `types/index.ts`; `amount` is optional and the
code treats `0` like a missing amount (JavaScript falsiness). -/
structure PlayerActionRequest where
  playerId : Nat
  action : PlayerAction
  amount : Option Int
deriving DecidableEq, Repr, Inhabited

namespace PokerEngine

/-- The dealing loop of `PokerEngine.dealCommunityCards`: draw `n` cards from
the top, throwing when the deck runs out. -/
def drawN : Nat → List Card → Except String (List Card × List Card)
  | 0, d => .ok ([], d)
  | _ + 1, [] => .error "Insufficient cards in deck"
  | n + 1, c :: d => do
    let r ← drawN n d
    .ok (c :: r.1, r.2)

/-- `PokerEngine.dealCommunityCards` (part_005): burn one card (when asked and
the deck is non-empty), then deal `count` cards. -/
def dealCommunityCards (deck : List Card) (count : Nat) (burnCard : Bool) :
    Except String (List Card × List Card) :=
  let remainingDeck := if burnCard && !deck.isEmpty then deck.drop 1 else deck
  drawN count remainingDeck

/-- The hand-evaluation pass of `PokerEngine.determineWinners`
(`activePlayers.map(...)` in the source): evaluate each in-hand player's
7 cards in order, aborting on the first evaluation error. -/
def evalHands (cc : List Card) : List (Nat × Player) → Except String (List (Nat × Hand))
  | [] => .ok []
  | ip :: rest => do
    let h ← evaluateHand (ip.2.holeCards ++ cc)
    let tail ← evalHands cc rest
    .ok ((ip.1, h) :: tail)

/-- The best-hand scan of `PokerEngine.determineWinners`: start from the first
player's hand and replace it whenever a strictly better one appears. -/
def bestHandScan (hs : List Hand) (init : Hand) : Hand :=
  hs.foldl (fun b h => if compareHands h b > 0 then h else b) init

/-- The general (2-or-more players) branch of `PokerEngine.determineWinners`:
evaluate every in-hand player's hand, scan for the best one starting from the
first, and collect every player whose hand ties it. -/
def multiWinners (communityCards : List Card) (act : List (Nat × Player)) :
    Except String (List Nat × Hand) := do
  let playerHands ← evalHands communityCards act
  let first := (playerHands.headD (0, default)).2
  let bestHand := bestHandScan ((playerHands.drop 1).map (·.2)) first
  let winners := (playerHands.filter
    (fun ih => compareHands ih.2 bestHand == 0)).map (·.1)
  .ok (winners, bestHand)

/-- `PokerEngine.determineWinners` (part_005).  Winners are returned as the
indices (into `players`) of the `isInHand` players whose hand ties the best
hand; the TypeScript version returns the player objects themselves. -/
def determineWinners (players : List Player) (communityCards : List Card) :
    Except String (List Nat × Hand) :=
  let act := players.enum.filter (fun ip => ip.2.isInHand)
  match act with
  | [] => .error "No active players to determine winner"
  | [ip] => do
    let h ← evaluateHand (ip.2.holeCards ++ communityCards)
    .ok ([ip.1], h)
  | _ => multiWinners communityCards act

/-- The awarding loop of `PokerEngine.distributePot`: winner `i` receives
`sharePerWinner` plus one extra chip when `i < remainder`. -/
def awardChips (sharePerWinner remainder : Int) : Nat → List Player → List Player
  | _, [] => []
  | i, w :: ws =>
    { w with chips := w.chips + sharePerWinner +
        (if (i : Int) < remainder then 1 else 0) } :: awardChips sharePerWinner remainder (i + 1) ws

/-- `PokerEngine.distributePot` (part_005): split `pot` evenly among the
winners (`Math.floor` division, JavaScript `%` remainder), first winners
taking the indivisible chips; returns the updated winners and the remaining
pot (`0` whenever there is at least one winner). -/
def distributePot (pot : Int) (winners : List Player) : List Player × Int :=
  if winners.length = 0 then (winners, pot)
  else
    let sharePerWinner := Int.fdiv pot winners.length
    let remainder := Int.tmod pot winners.length
    (awardChips sharePerWinner remainder 0 winners, 0)

/-- `PokerEngine.getValidActions` (part_005). -/
def getValidActions (player : Player) (currentBet : Int) : List PlayerAction :=
  if !player.isInHand || !player.isActive then []
  else
    let callAmount := currentBet - player.currentBet
    [PlayerAction.fold] ++
    (if callAmount = 0 then [PlayerAction.check] else []) ++
    (if callAmount > 0 ∧ callAmount ≤ player.chips then [PlayerAction.call] else []) ++
    (if player.chips > callAmount then [PlayerAction.raise] else []) ++
    (if player.chips > 0 then [PlayerAction.allIn] else [])

end PokerEngine

/-- `getNextActivePlayerIndex` search loop (`utils/helpers.ts`): advance
cyclically while the callback rejects the index and fewer than `playerCount`
attempts were made; returns the final index and the attempt count. -/
def gnapiLoop (cb : Nat → Bool) (playerCount : Nat) (nextIndex attempts : Nat) :
    Nat × Nat :=
  if h : ¬ cb nextIndex ∧ attempts < playerCount then
    gnapiLoop cb playerCount ((nextIndex + 1) % playerCount) (attempts + 1)
  else (nextIndex, attempts)
termination_by playerCount - attempts
decreasing_by omega

/-- `getNextActivePlayerIndex` (`utils/helpers.ts`): next index after
`currentIndex` satisfying the callback, or `currentIndex` itself when a full
loop finds none. -/
def getNextActivePlayerIndex (currentIndex playerCount : Nat) (cb : Nat → Bool) :
    Nat :=
  let r := gnapiLoop cb playerCount ((currentIndex + 1) % playerCount) 0
  if r.2 < playerCount then r.1 else currentIndex

namespace GameManager

/-- `GameManager.postBlinds`: posts the small then the big blind, each capped
at the poster's chips (`Math.min`), recording it as `currentBet` and
`totalBet` and adding it to the pot.  Nothing else is modified. -/
def postBlinds (room : Room) : Room :=
  let g := room.gameState
  let r1 :=
    match room.players.get? g.smallBlindIndex with
    | some p =>
      if p.isActive then
        let blindAmount := min room.settings.smallBlind p.chips
        let p1 := { p with chips := p.chips - blindAmount,
                           currentBet := blindAmount,
                           totalBet := blindAmount, isSmallBlind := true }
        { room with players := room.players.set g.smallBlindIndex p1,
                    gameState := { g with pot := g.pot + blindAmount } }
      else room
    | none => room
  let g1 := r1.gameState
  match r1.players.get? g1.bigBlindIndex with
  | some p =>
    if p.isActive then
      let blindAmount := min r1.settings.bigBlind p.chips
      let p1 := { p with chips := p.chips - blindAmount,
                         currentBet := blindAmount,
                         totalBet := blindAmount, isBigBlind := true }
      { r1 with players := r1.players.set g1.bigBlindIndex p1,
                gameState := { g1 with pot := g1.pot + blindAmount } }
    else r1
  | none => r1

/-- `GameManager.shouldAdvanceHand`: the betting round is over. -/
def shouldAdvanceHand (room : Room) : Bool :=
  let activePlayers := room.players.filter (·.isInHand)
  if activePlayers.length ≤ 1 then true
  else if (activePlayers.filter (fun p => decide (p.chips > 0))).length ≤ 1 then true
  else activePlayers.all (fun p =>
    !(decide (p.chips > 0) &&
      (p.lastAction.isNone || decide (p.currentBet < room.gameState.currentBet))))

/-- `GameManager.processShowdown`: determine winners, record their ids,
distribute the pot to them, and close the hand. -/
def processShowdown (room : Room) : Except (String × Room) Room :=
  match PokerEngine.determineWinners room.players room.gameState.communityCards with
  | .error msg => .error (msg, room)
  | .ok wh =>
    let winnerIdxs := wh.1
    let wIds := winnerIdxs.map (fun i => (room.players.getD i default).id)
    let g1 := { room.gameState with winners := wIds }
    let winnersList := winnerIdxs.map (fun i => room.players.getD i default)
    let dres := PokerEngine.distributePot g1.pot winnersList
    let players1 := (winnerIdxs.zip dres.1).foldl
      (fun ps iw => ps.set iw.1 iw.2) room.players
    let g2a := { g1 with pot := dres.2, phase := GamePhase.handComplete }
    let g2 := { g2a with isHandActive := false }
    .ok { room with players := players1, gameState := g2 }

/-- The assignment of `currentPlayerIndex` after a non-showdown phase advance:
first player after the dealer who is active, in the hand, and has chips. -/
def setPostPhaseActor (room : Room) : Room :=
  let nextIdx := getNextActivePlayerIndex room.gameState.dealerIndex
    room.players.length
    (fun idx =>
      match room.players.get? idx with
      | some p => p.isActive && p.isInHand && decide (p.chips > 0)
      | none => false)
  { room with gameState := { room.gameState with currentPlayerIndex := nextIdx } }

/-- One street of `GameManager.advanceHand`: set the new phase, burn and deal
`count` community cards, then seat the next actor.  A deck underflow throws
with the phase already advanced (faithful to the mutation order). -/
def dealStreet (room : Room) (newPhase : GamePhase) (count : Nat) :
    Except (String × Room) Room :=
  let roomP := { room with gameState := { room.gameState with phase := newPhase } }
  match PokerEngine.dealCommunityCards roomP.deck count true with
  | .error msg => .error (msg, roomP)
  | .ok cr =>
    let gD := { roomP.gameState with
      communityCards := roomP.gameState.communityCards ++ cr.1 }
    let roomD := { roomP with gameState := gD, deck := cr.2 }
    .ok (setPostPhaseActor roomD)

/-- `GameManager.advanceHand`: clear `lastAction` for in-hand players, reset
the table bet and minimum raise, then deal the next street — or, from the
river, enter showdown.  Note: the players' `currentBet` fields are *not*
reset. -/
def advanceHand (room : Room) : Except (String × Room) Room :=
  let players1 := room.players.map
    (fun p => if p.isInHand then { p with lastAction := none } else p)
  let g1 :=
    { room.gameState with currentBet := 0, minRaise := room.settings.bigBlind }
  let room1 : Room := { room with players := players1, gameState := g1 }
  match g1.phase with
  | GamePhase.preFlop => dealStreet room1 GamePhase.flop 3
  | GamePhase.flop => dealStreet room1 GamePhase.turn 1
  | GamePhase.turn => dealStreet room1 GamePhase.river 1
  | GamePhase.river =>
    processShowdown
      { room1 with gameState := { g1 with phase := GamePhase.showdown } }
  | GamePhase.waiting => .ok (setPostPhaseActor room1)
  | GamePhase.showdown => .ok room1
  | GamePhase.handComplete => .ok (setPostPhaseActor room1)

/-- The validation-and-switch part of `GameManager.processPlayerAction`
(lines 93–164): find the player, enforce the turn, then apply the requested
action to the player and the game state, or throw without touching anything. -/
def applyActionStep (room : Room) (req : PlayerActionRequest) :
    Except (String × Room) Room :=
  let g := room.gameState
  match room.players.findIdx? (fun p => p.id == req.playerId) with
  | none => .error ("Invalid player or not player's turn", room)
  | some i =>
    match room.players.get? i with
    | none => .error ("Invalid player or not player's turn", room)
    | some player =>
      if !player.isInHand || g.currentPlayerIndex ≠ i then
        .error ("Invalid player or not player's turn", room)
      else
        match req.action with
        | PlayerAction.fold =>
          let p1 := { player with isInHand := false,
                                  lastAction := some PlayerAction.fold }
          .ok { room with players := room.players.set i p1 }
        | PlayerAction.check =>
          if g.currentBet > player.currentBet then
            .error ("Cannot check when there is a bet to call", room)
          else
            let p1 := { player with lastAction := some PlayerAction.check }
            .ok { room with players := room.players.set i p1 }
        | PlayerAction.call =>
          let callAmount := g.currentBet - player.currentBet
          if callAmount > player.chips then
            .error ("Insufficient chips to call", room)
          else
            let p1 := { player with chips := player.chips - callAmount,
                                    currentBet := player.currentBet + callAmount,
                                    totalBet := player.totalBet + callAmount,
                                    lastAction := some PlayerAction.call }
            .ok { room with players := room.players.set i p1,
                            gameState := { g with pot := g.pot + callAmount } }
        | PlayerAction.raise =>
          match req.amount with
          | none => .error ("Minimum raise not met", room)
          | some a =>
            if a = 0 ∨ a < g.minRaise then
              .error ("Minimum raise not met", room)
            else
              let totalBet := g.currentBet + a
              let additionalBet := totalBet - player.currentBet
              if additionalBet > player.chips then
                .error ("Insufficient chips to raise", room)
              else
                let p1 := { player with chips := player.chips - additionalBet,
                                        currentBet := totalBet,
                                        totalBet := player.totalBet + additionalBet,
                                        lastAction := some PlayerAction.raise }
                let g1 := { g with pot := g.pot + additionalBet,
                                   currentBet := totalBet, minRaise := a }
                .ok { room with players := room.players.set i p1, gameState := g1 }
        | PlayerAction.allIn =>
          let allInAmount := player.chips
          let newCurrentBet := player.currentBet + allInAmount
          let g1 := { g with pot := g.pot + allInAmount }
          let g2 :=
            if newCurrentBet > g.currentBet then
              { g1 with currentBet := newCurrentBet,
                        minRaise := max g.minRaise (newCurrentBet - g.currentBet) }
            else g1
          let p1 := { player with chips := 0, currentBet := newCurrentBet,
                                  totalBet := player.totalBet + allInAmount,
                                  lastAction := some PlayerAction.allIn }
          .ok { room with players := room.players.set i p1, gameState := g2 }

/-- `GameManager.processPlayerAction`: validate and apply the action, then
either advance the hand (when the betting round is over) or pass the turn to
the next active in-hand player. -/
def processPlayerAction (room : Room) (req : PlayerActionRequest) :
    Except (String × Room) Room :=
  match applyActionStep room req with
  | .error e => .error e
  | .ok room1 =>
    if shouldAdvanceHand room1 then advanceHand room1
    else
      let nextIdx := getNextActivePlayerIndex room1.gameState.currentPlayerIndex
        room1.players.length
        (fun idx =>
          match room1.players.get? idx with
          | some p => p.isActive && p.isInHand
          | none => false)
      .ok { room1 with gameState :=
        { room1.gameState with currentPlayerIndex := nextIdx } }

end GameManager

namespace PokerEngineSwift

/-- The Swift engine's view of a player (`Player.swift`): id, the total bet
of the current hand, and the all-in flag — the only fields
`calculateSidePots` reads. -/
structure SwiftPlayer where
  id : Nat
  totalBetThisRound : Int
  isAllIn : Bool
deriving DecidableEq, Repr, Inhabited

/-- One step of the `for player in sortedPlayers` loop of
`calculateSidePots`.  The accumulator is (side pots so far, previousBet,
remaining eligible ids).  Swift's `Set` has no specified iteration order; the
remaining ids are modelled as a list in ascending-bet order, which fixes one
of the admissible orders (all statements below are order-insensitive). -/
def sidePotStep (acc : List (Int × List Nat) × Int × List Nat)
    (player : SwiftPlayer) : List (Int × List Nat) × Int × List Nat :=
  let potContribution := player.totalBetThisRound - acc.2.1
  let pots :=
    if potContribution > 0 then
      acc.1 ++ [(potContribution * acc.2.2.length, acc.2.2)]
    else acc.1
  let remaining := if player.isAllIn then acc.2.2.erase player.id else acc.2.2
  (pots, player.totalBetThisRound, remaining)

/-- `PokerEngine.calculateSidePots` (part_011, Swift): layer the pot by the
distinct total contributions, smallest first; each layer's amount is
`(threshold − previous) × (number of players still covering it)` and its
eligible players are those players' ids. -/
def calculateSidePots (players : List SwiftPlayer) : List (Int × List Nat) :=
  let sortedPlayers := jsSort
    (fun a b => if a.totalBetThisRound < b.totalBetThisRound then -1
                else if b.totalBetThisRound < a.totalBetThisRound then 1 else 0)
    (players.filter (fun p => decide (p.totalBetThisRound > 0)))
  (sortedPlayers.foldl sidePotStep ([], 0, sortedPlayers.map (·.id))).1

end PokerEngineSwift

deriving instance DecidableEq for Except

/-- Sum of the players' chip stacks. -/
def sumChips (ps : List Player) : Int := (ps.map (·.chips)).sum

/-- The conserved quantity of the chip-conservation claim: chips in stacks
plus the pot (the backend engine has no separate side-pot accounts). -/
def chipSum (room : Room) : Int := sumChips room.players + room.gameState.pot

/-- Total number of ranked cards of an evaluated hand (primary plus kickers). -/
def Hand.totalCards (h : Hand) : Nat := (h.cards ++ h.kickers).length

/-- Number of winners at positions `j, j+1, …, j+n−1` that receive the one
extra chip (`i < remainder` in `distributePot`). -/
def extraCount (r : Int) : Nat → Nat → Int
  | _, 0 => 0
  | j, n + 1 => (if (j : Int) < r then 1 else 0) + extraCount r (j + 1) n

/-- Round-completion predicate exactly as claim C9 words it: at most one
player can still act, or every in-hand player with chips has acted and has
`currentBet` *equal* to the table's current bet. -/
def isRoundCompleteSpec (room : Room) : Prop :=
  (room.players.filter (fun p => p.isInHand && decide (p.chips > 0))).length ≤ 1 ∨
  ∀ p ∈ room.players, p.isInHand = true → 0 < p.chips →
    p.lastAction ≠ none ∧ p.currentBet = room.gameState.currentBet

/-- Round completion as the code decides it: as `isRoundCompleteSpec` but
with `currentBet ≥ table bet` in place of equality. -/
def isRoundCompleteCode (room : Room) : Prop :=
  (room.players.filter (fun p => p.isInHand && decide (p.chips > 0))).length ≤ 1 ∨
  ∀ p ∈ room.players, p.isInHand = true → 0 < p.chips →
    p.lastAction ≠ none ∧ room.gameState.currentBet ≤ p.currentBet

instance (room : Room) : Decidable (isRoundCompleteSpec room) := by
  unfold isRoundCompleteSpec; infer_instance

instance (room : Room) : Decidable (isRoundCompleteCode room) := by
  unfold isRoundCompleteCode; infer_instance

/-- The validation failures enumerated by claim C3, phrased over the same
guards `processPlayerAction` tests: unknown player, not in hand, out of
turn, check into a live bet, raise missing/zero/below the minimum raise, or
a call/raise the player's chips cannot cover. -/
def failsValidationB (room : Room) (req : PlayerActionRequest) : Bool :=
  match room.players.findIdx? (fun p => p.id == req.playerId) with
  | none => true
  | some i =>
    let p := room.players.getD i default
    !p.isInHand || decide (room.gameState.currentPlayerIndex ≠ i) ||
    (req.action == PlayerAction.check &&
      decide (p.currentBet < room.gameState.currentBet)) ||
    (req.action == PlayerAction.call &&
      decide (p.chips < room.gameState.currentBet - p.currentBet)) ||
    (req.action == PlayerAction.raise &&
      (req.amount.isNone || decide (req.amount.getD 0 = 0) ||
       decide (req.amount.getD 0 < room.gameState.minRaise) ||
       decide (p.chips < room.gameState.currentBet + req.amount.getD 0 - p.currentBet)))

/-! ### Concrete scenarios used by the claims

Suits: 0 = hearts, 1 = diamonds, 2 = clubs, 3 = spades. -/

/-- Claim C1 and C2 scenario, at showdown: player A (id 0) went all-in for a
total of 50, player B (id 1) all-in for 150, player C (id 2) called 150 and
kept 50 chips.  Community 2♥ 5♦ 9♣ J♠ K♦; A holds A♠ A♣ (pair of aces, the
best hand), C holds K♠ Q♣ (pair of kings, second best), B holds 3♣ 4♣ (king
high, the worst).  Pot: 50 + 150 + 150 = 350. -/
def c1Room : Room :=
  ⟨[⟨0, 0, [⟨14,3⟩,⟨14,2⟩], true, true, 50, 50, some .allIn, false, false, false⟩,
    ⟨1, 0, [⟨3,2⟩,⟨4,2⟩], true, true, 150, 150, some .allIn, false, false, false⟩,
    ⟨2, 50, [⟨13,3⟩,⟨12,2⟩], true, true, 150, 150, some .call, false, false, false⟩],
   ⟨.showdown, [⟨2,0⟩,⟨5,1⟩,⟨9,2⟩,⟨11,3⟩,⟨13,1⟩], 350, 0, 0, 0, 1, 150, 100, true, []⟩,
   ⟨10, 20⟩, []⟩

/-- The same three players as seen by the Swift side-pot helper:
A contributed 50 (all-in), B 150 (all-in), C 150 (not all-in). -/
def c1SwiftPlayers : List PokerEngineSwift.SwiftPlayer :=
  [⟨0, 50, true⟩, ⟨1, 150, true⟩, ⟨2, 150, false⟩]

/-- Claim C4 scenario: pre-flop, player 0 already all-in for 100, player 1
(to act) has 50 chips behind after putting in 50.  Deck of 10 cards. -/
def c4Room : Room :=
  ⟨[⟨0, 0, [⟨14,3⟩,⟨14,2⟩], true, true, 100, 100, some .allIn, false, false, false⟩,
    ⟨1, 50, [⟨2,0⟩,⟨3,0⟩], true, true, 50, 50, some .call, false, false, false⟩],
   ⟨.preFlop, [], 150, 1, 0, 0, 1, 100, 100, true, []⟩,
   ⟨10, 20⟩,
   [⟨2,1⟩,⟨3,1⟩,⟨4,1⟩,⟨5,1⟩,⟨6,1⟩,⟨7,1⟩,⟨8,1⟩,⟨9,1⟩,⟨10,1⟩,⟨11,1⟩]⟩

/-- Player 1 goes all-in, making every in-hand player all-in before the flop. -/
def c4Req : PlayerActionRequest := ⟨1, PlayerAction.allIn, none⟩

/-- Claim C5 card set `{2C,2D,2H,5S,5D,9C,9H}`. -/
def c5Cards : List Card :=
  [⟨2,2⟩, ⟨2,1⟩, ⟨2,0⟩, ⟨5,3⟩, ⟨5,1⟩, ⟨9,2⟩, ⟨9,0⟩]

/-- Claim C6 card set `{AS,2H,3D,4C,5S,9H,10D}`. -/
def c6Wheel : List Card :=
  [⟨14,3⟩, ⟨2,0⟩, ⟨3,1⟩, ⟨4,2⟩, ⟨5,3⟩, ⟨9,0⟩, ⟨10,1⟩]

/-- A 6-high straight `{2,3,4,5,6}` of mixed suits for the C6 comparison. -/
def c6SixHigh : List Card :=
  [⟨2,0⟩, ⟨3,1⟩, ⟨4,2⟩, ⟨5,3⟩, ⟨6,0⟩]

/-- Claim C7 scenario: player 0 (to act) has only 10 chips facing a table
bet of 50 with nothing committed yet. -/
def c7Room : Room :=
  ⟨[⟨0, 10, [], true, true, 0, 0, none, false, false, false⟩,
    ⟨1, 200, [], true, true, 50, 50, some .raise, false, false, false⟩],
   ⟨.preFlop, [], 60, 0, 1, 0, 1, 50, 50, true, []⟩, ⟨10, 20⟩, []⟩

/-- Player 0 attempts to call the 50 with 10 chips. -/
def c7Req : PlayerActionRequest := ⟨0, PlayerAction.call, none⟩

/-- Claim C8 scenario: the small blind (index 0) has only 3 chips against a
nominal small blind of 10; the big blind (index 1) can cover its 20. -/
def c8Room : Room :=
  ⟨[⟨0, 3, [], true, true, 0, 0, none, false, false, false⟩,
    ⟨1, 100, [], true, true, 0, 0, none, false, false, false⟩],
   ⟨.preFlop, [], 0, 0, 0, 0, 1, 20, 20, true, []⟩, ⟨10, 20⟩, []⟩

/-- Claim C9 counterexample state: on the flop all three players have
checked; their `currentBet` fields still hold the stale pre-flop 20 while
the table bet was reset to 0 (the code never clears player `currentBet`
between streets). -/
def c9Room : Room :=
  ⟨[⟨0, 100, [], true, true, 20, 20, some .check, false, false, false⟩,
    ⟨1, 100, [], true, true, 20, 20, some .check, false, false, false⟩,
    ⟨2, 100, [], true, true, 20, 20, some .check, false, false, false⟩],
   ⟨.flop, [], 60, 0, 0, 0, 1, 0, 20, true, []⟩, ⟨10, 20⟩, []⟩

/-- Three players, all of whom have checked at a table bet of 0
(the claim's "all three players have checked" example). -/
def c9AllChecked : Room :=
  ⟨[⟨0, 100, [], true, true, 0, 0, some .check, false, false, false⟩,
    ⟨1, 100, [], true, true, 0, 0, some .check, false, false, false⟩,
    ⟨2, 100, [], true, true, 0, 0, some .check, false, false, false⟩],
   ⟨.flop, [], 60, 0, 0, 0, 1, 0, 20, true, []⟩, ⟨10, 20⟩, []⟩

/-- As `c9AllChecked` but the third player has not acted yet
(`lastAction = none`). -/
def c9OneNull : Room :=
  ⟨[⟨0, 100, [], true, true, 0, 0, some .check, false, false, false⟩,
    ⟨1, 100, [], true, true, 0, 0, some .check, false, false, false⟩,
    ⟨2, 100, [], true, true, 0, 0, none, false, false, false⟩],
   ⟨.flop, [], 60, 0, 0, 0, 1, 0, 20, true, []⟩, ⟨10, 20⟩, []⟩

/-- Chip-conservation witness state: player 0 (to act, 100 chips, 10
committed) calls a table bet of 20; player 1 has not acted yet, so the
round does not end. -/
def c2Room : Room :=
  ⟨[⟨0, 100, [], true, true, 10, 10, none, false, false, false⟩,
    ⟨1, 100, [], true, true, 20, 20, none, false, false, false⟩],
   ⟨.preFlop, [], 30, 0, 1, 0, 1, 20, 20, true, []⟩, ⟨10, 20⟩, []⟩

/-- Player 0 calls in the conservation witness state. -/
def c2Req : PlayerActionRequest := ⟨0, PlayerAction.call, none⟩

/-- A request by the wrong player (id 1 is not the acting player) in the
`c2Room` state, used to witness the validation-error claim. -/
def c3Req : PlayerActionRequest := ⟨1, PlayerAction.check, none⟩

/-- An 8-card input (one more than the spec's 7-card interface) for the
evaluator-arity witness. -/
def c10Cards : List Card :=
  [⟨2,0⟩, ⟨5,1⟩, ⟨7,2⟩, ⟨9,3⟩, ⟨11,0⟩, ⟨12,1⟩, ⟨13,2⟩, ⟨14,3⟩]

/-! ## Claims -/

/-- C1 (counterexample): in the scenario A all-in 50 / B all-in 150 /
C calls 150 with A holding the best hand and C the second best, the claim
predicts A wins only the 150 layer and C the 200 layer (final stacks
`[150, 0, 250]`); the showdown code instead hands the whole 350 pot to A
(final stacks `[350, 0, 50]`). -/
theorem claim_C1_counterexample :
  (do
      let hA ← (PokerEngine.evaluateHand
        ((c1Room.players.getD 0 default).holeCards ++
          c1Room.gameState.communityCards)).toOption
      let hB ← (PokerEngine.evaluateHand
        ((c1Room.players.getD 1 default).holeCards ++
          c1Room.gameState.communityCards)).toOption
      let hC ← (PokerEngine.evaluateHand
        ((c1Room.players.getD 2 default).holeCards ++
          c1Room.gameState.communityCards)).toOption
      pure (decide (0 < PokerEngine.compareHands hA hC) &&
            decide (0 < PokerEngine.compareHands hC hB))) = some true ∧
  (GameManager.processShowdown c1Room).toOption.map
    (fun r => r.players.map (·.chips)) = some [350, 0, 50] ∧
  (GameManager.processShowdown c1Room).toOption.map
    (fun r => r.players.map (·.chips)) ≠ some [150, 0, 250] := by decide

/-- C1 (amended): the layered side-pot structure of the scenario — a 150-chip
layer contested by {A,B,C} and a 200-chip layer contested by {B,C} — is
computed by the standalone Swift helper `calculateSidePots`, but the showdown
path distributes the pot without layering: the best hand (A) receives the
entire 350-chip pot, the sum awarded equalling the pot exactly. -/
theorem claim_C1 :
  (PokerEngineSwift.calculateSidePots c1SwiftPlayers).map (·.1) = [150, 200] ∧
  List.Perm ((PokerEngineSwift.calculateSidePots c1SwiftPlayers).getD 0 (0, [])).2
    [0, 1, 2] ∧
  List.Perm ((PokerEngineSwift.calculateSidePots c1SwiftPlayers).getD 1 (0, [])).2
    [1, 2] ∧
  (GameManager.processShowdown c1Room).toOption.map
    (fun r => (r.players.map (·.chips), r.gameState.pot, r.gameState.winners)) =
    some ([350, 0, 50], 0, [0]) ∧
  (GameManager.processShowdown c1Room).toOption.map chipSum =
    some (chipSum c1Room) := by decide

/-- C4: with every in-hand player all-in before the flop, processing the
final all-in deals only the next street: the hand is left on the flop with
3 community cards, the 200-chip pot undistributed and the hand still active —
showdown is not reached automatically as the claim (and the code's own
"advance to showdown" comment) requires. -/
theorem claim_C4_eval :
  (GameManager.processPlayerAction c4Room c4Req).toOption.map
    (fun r => (r.gameState.phase, r.gameState.communityCards.length,
               r.gameState.pot, r.gameState.isHandActive,
               r.players.map (·.chips))) =
    some (GamePhase.flop, 3, 200, true, [0, 0]) := by decide

/-- C5 (counterexample): on `{2C,2D,2H,5S,5D,9C,9H}` the evaluator does
return a FullHouse of the 2s over the 9s, but `separateCardsByRank` sorts
the primary cards by rank descending, so their ranks read `[9,9,2,2,2]`,
not `[2,2,2,9,9]` as the claim states. -/
theorem claim_C5_counterexample :
  (PokerEngine.evaluateHand c5Cards).toOption.map
    (fun h => (h.rank, h.cards.map (·.rank))) =
    some (HandRank.FullHouse, [9, 9, 2, 2, 2]) ∧
  (PokerEngine.evaluateHand c5Cards).toOption.map
    (fun h => h.cards.map (·.rank)) ≠ some [2, 2, 2, 9, 9] := by decide

/-- C5 (amended): `evaluateHand {2C,2D,2H,5S,5D,9C,9H}` is a FullHouse whose
primary cards are the triple of 2s and the pair of 9s sorted by rank
descending — ranks `[9,9,2,2,2]` — with no kickers. -/
theorem claim_C5 :
  (PokerEngine.evaluateHand c5Cards).toOption.map
    (fun h => (h.rank, h.cards.map (·.rank), h.kickers.map (·.rank))) =
    some (HandRank.FullHouse, [9, 9, 2, 2, 2], []) := by decide

/-- C6: `{AS,2H,3D,4C,5S,9H,10D}` evaluates to a Straight arranged as the
wheel 5-4-3-2-A (the 5 is the effective high card), and `compareHands` puts
this wheel strictly below a 6-high straight `{2,3,4,5,6}`. -/
theorem claim_C6 :
  (PokerEngine.evaluateHand c6Wheel).toOption.map
    (fun h => (h.rank, h.cards.map (·.rank))) =
    some (HandRank.Straight, [5, 4, 3, 2, 14]) ∧
  (do
    let hw ← (PokerEngine.evaluateHand c6Wheel).toOption
    let hs ← (PokerEngine.evaluateHand c6SixHigh).toOption
    pure (PokerEngine.compareHands hw hs)) = some (-1) ∧
  ((-1 : Int) < 0) := by decide

/-- C8 (counterexample): the small blind posts 3 of the nominal 10 — going
broke in the process — yet `postBlinds` leaves their `isAllIn` flag `false`:
no code path of the backend ever sets the flag. -/
theorem claim_C8_counterexample :
  c8Room.settings.smallBlind = 10 ∧
  ((GameManager.postBlinds c8Room).players.getD 0 default).currentBet = 3 ∧
  ((GameManager.postBlinds c8Room).players.getD 0 default).chips = 0 ∧
  ((GameManager.postBlinds c8Room).players.getD 0 default).isAllIn = false := by decide

/-- C9 (counterexample): on the flop all three players have checked but their
`currentBet` fields still hold the stale pre-flop 20 against a table bet of
0.  The code declares the round complete (it tests `currentBet ≥ table bet`),
while the claim's condition — which demands equality — does not hold. -/
theorem claim_C9_counterexample :
  GameManager.shouldAdvanceHand c9Room = true ∧ ¬ isRoundCompleteSpec c9Room := by
  decide

/-- C8 (amended): `postBlinds` moves `min(nominal blind, chips)` from the
small-blind and then the big-blind player into the pot, recording the amount
as both `currentBet` and `totalBet` and setting the positional flag — but a
blind posted short of its nominal amount does *not* set `allIn`; the flag
(like every other unnamed field) is left untouched, as the record updates
below show. -/
theorem claim_C8 (room : Room) (sb bb : Player)
    (hsb : room.players.get? room.gameState.smallBlindIndex = some sb)
    (hbb : room.players.get? room.gameState.bigBlindIndex = some bb)
    (hsa : sb.isActive = true) (hba : bb.isActive = true)
    (hne : room.gameState.smallBlindIndex ≠ room.gameState.bigBlindIndex) :
    ((GameManager.postBlinds room).players.get? room.gameState.smallBlindIndex =
      some { sb with chips := sb.chips - min room.settings.smallBlind sb.chips,
                     currentBet := min room.settings.smallBlind sb.chips,
                     totalBet := min room.settings.smallBlind sb.chips,
                     isSmallBlind := true }) ∧
    ((GameManager.postBlinds room).players.get? room.gameState.bigBlindIndex =
      some { bb with chips := bb.chips - min room.settings.bigBlind bb.chips,
                     currentBet := min room.settings.bigBlind bb.chips,
                     totalBet := min room.settings.bigBlind bb.chips,
                     isBigBlind := true }) ∧
    (GameManager.postBlinds room).gameState.pot =
      room.gameState.pot + min room.settings.smallBlind sb.chips +
        min room.settings.bigBlind bb.chips := by
  unfold GameManager.postBlinds
  simp only [hsb, hsa, if_true]
  simp only [List.get?_set_ne _ _ hne, hbb, hba, if_true]
  refine ⟨?_, ?_, trivial⟩
  · rw [List.get?_set_ne _ _ (Ne.symm hne), List.get?_set_eq, hsb]
    rfl
  · rw [List.get?_set_eq, List.get?_set_ne _ _ hne, hbb]
    rfl

/-- C8 witness: the small blind with 3 chips against a nominal 10 posts all
3, ends with 0 chips and an unchanged (false) `isAllIn` flag; the big blind
posts its full 20. -/
theorem claim_C8_witness :
    ((GameManager.postBlinds c8Room).players.get? 0 =
      some ⟨0, 0, [], true, true, 3, 3, none, true, false, false⟩) ∧
    (GameManager.postBlinds c8Room).gameState.pot = 23 := by
  have h := claim_C8 c8Room (c8Room.players.getD 0 default)
    (c8Room.players.getD 1 default) (by decide) (by decide) (by decide)
    (by decide) (by decide)
  exact ⟨h.1, h.2.2⟩

theorem claim_C9 :
    (∀ room : Room,
      GameManager.shouldAdvanceHand room = true ↔ isRoundCompleteCode room) ∧
    GameManager.shouldAdvanceHand c9AllChecked = true ∧
    GameManager.shouldAdvanceHand c9OneNull = false := by
  refine ⟨?_, by decide, by decide⟩
  intro room
  have hff : ((room.players.filter (·.isInHand)).filter
      (fun p => decide (p.chips > 0))) =
      room.players.filter (fun p => p.isInHand && decide (p.chips > 0)) := by
    rw [List.filter_filter]
    congr 1
    funext a
    rw [Bool.and_comm]
  constructor
  · intro h
    simp only [GameManager.shouldAdvanceHand] at h
    split_ifs at h with h1 h2
    · left
      calc (room.players.filter (fun p => p.isInHand && decide (p.chips > 0))).length
          = ((room.players.filter (·.isInHand)).filter
              (fun p => decide (p.chips > 0))).length := by rw [hff]
        _ ≤ (room.players.filter (·.isInHand)).length := List.length_filter_le _ _
        _ ≤ 1 := h1
    · left
      rw [← hff]
      exact h2
    · right
      intro p hp hin hchips
      have hall := List.all_eq_true.mp h p (List.mem_filter.mpr ⟨hp, hin⟩)
      simp only [Bool.not_eq_true', Bool.and_eq_false_iff, decide_eq_false_iff_not,
        Bool.or_eq_false_iff, Option.isNone_eq_false_iff, not_lt] at hall
      rcases hall with hc | ⟨hsome, hge⟩
      · omega
      · exact ⟨Option.isSome_iff_ne_none.mp hsome, hge⟩
  · intro h
    simp only [GameManager.shouldAdvanceHand]
    split_ifs with h1 h2
    · rfl
    · rfl
    · rcases h with hle | hall
      · exact absurd (by rw [← hff] at hle; exact hle) h2
      · rw [List.all_eq_true]
        intro p hp
        have hmem := List.mem_filter.mp hp
        by_cases hc : p.chips > 0
        · obtain ⟨hla, hbet⟩ := hall p hmem.1 hmem.2 hc
          simp only [Bool.not_eq_true', Bool.and_eq_false_iff,
            decide_eq_false_iff_not, Bool.or_eq_false_iff,
            Option.isNone_eq_false_iff, not_lt]
          exact Or.inr ⟨Option.isSome_iff_ne_none.mpr hla, hbet⟩
        · simp [hc]

/-- A successful `findIdx?` search yields an element at the found index
satisfying the predicate. -/
theorem findIdx?_some_get? {α : Type} (p : α → Bool) (l : List α) :
    ∀ (n i : Nat), List.findIdx? p l n = some i →
      n ≤ i ∧ ∃ a, l.get? (i - n) = some a ∧ p a = true := by
  induction l with
  | nil => intro n i h; simp [List.findIdx?] at h
  | cons a l ih =>
    intro n i h
    rw [List.findIdx?_cons] at h
    by_cases hpa : p a = true
    · simp only [hpa, if_true, Option.some.injEq] at h
      subst h
      exact ⟨le_refl _, a, by simp, hpa⟩
    · simp only [hpa, if_false] at h
      obtain ⟨hle, b, hget, hpb⟩ := ih (n + 1) i h
      refine ⟨by omega, b, ?_, hpb⟩
      have hin : i - n = (i - (n + 1)) + 1 := by omega
      rw [hin]
      simpa using hget

/-- C3: every action request failing validation — unknown player, player not
in hand or out of turn, check into a live bet, raise missing/zero/below the
minimum, or a call/raise the chips cannot cover — makes
`processPlayerAction` throw synchronously, with the room (players, pot,
phase, acting index) exactly as it was. -/
theorem claim_C3 (room : Room) (req : PlayerActionRequest)
    (h : failsValidationB room req = true) :
    ∃ msg, GameManager.processPlayerAction room req = .error (msg, room) := by
  obtain ⟨pid, act, amt⟩ := req
  unfold failsValidationB at h
  unfold GameManager.processPlayerAction GameManager.applyActionStep
  dsimp only at h ⊢
  cases hfind : room.players.findIdx? (fun p => p.id == pid) with
  | none => exact ⟨_, rfl⟩
  | some i =>
    dsimp only
    obtain ⟨-, player, hget, -⟩ := findIdx?_some_get? _ _ 0 i hfind
    rw [Nat.sub_zero] at hget
    have hgd : room.players.getD i default = player := by
      show (room.players.get? i).getD default = player
      rw [hget]; rfl
    rw [hget]
    dsimp only
    rw [hfind] at h
    dsimp only at h
    rw [hgd] at h
    by_cases hguard :
        (!player.isInHand || decide (room.gameState.currentPlayerIndex ≠ i)) = true
    · rw [if_pos hguard]
      exact ⟨_, rfl⟩
    · rw [if_neg hguard]
      simp only [Bool.or_eq_true] at h
      rcases h with ((((hA | hB) | hC) | hD) | hE)
      · exact absurd (by simp [hA]) hguard
      · exact absurd (by simp [hB]) hguard
      · rw [Bool.and_eq_true, beq_iff_eq] at hC
        obtain ⟨hact, hcond⟩ := hC
        subst hact
        dsimp only
        rw [if_pos (of_decide_eq_true hcond)]
        exact ⟨_, rfl⟩
      · rw [Bool.and_eq_true, beq_iff_eq] at hD
        obtain ⟨hact, hcond⟩ := hD
        subst hact
        have hlt := of_decide_eq_true hcond
        dsimp only
        rw [if_pos (by omega)]
        exact ⟨_, rfl⟩
      · rw [Bool.and_eq_true, beq_iff_eq] at hE
        obtain ⟨hact, hcond⟩ := hE
        subst hact
        cases amt with
        | none => exact ⟨_, rfl⟩
        | some a =>
          simp only [Option.isNone_some, Bool.false_or, Option.getD_some,
            Bool.or_eq_true, decide_eq_true_eq] at hcond
          dsimp only
          by_cases hz : a = 0 ∨ a < room.gameState.minRaise
          · rw [if_pos hz]
            exact ⟨_, rfl⟩
          · rw [if_neg hz]
            push_neg at hz
            rcases hcond with (hc | hc) | hc
            · exact absurd hc hz.1
            · exact absurd hc (not_lt.mpr hz.2)
            · rw [if_pos (by omega)]
              exact ⟨_, rfl⟩

/-- C3 witness: in `c2Room` player 1 (not the acting player) tries to check;
the request is rejected and the room is returned unchanged. -/
theorem claim_C3_witness :
    failsValidationB c2Room c3Req = true ∧
    ∃ msg, GameManager.processPlayerAction c2Room c3Req = .error (msg, c2Room) :=
  ⟨by decide, claim_C3 c2Room c3Req (by decide)⟩

/-- C7 (amended): when it is the player's turn and the action is Call, the
code moves exactly `currentBet − player.currentBet` — never a capped
`min(·, chips)` — from the stack into the pot, leaving every other player
untouched, and only when the player can cover it; a player whose chips are
smaller than the amount to call is rejected with `Insufficient chips to
call` (they must use AllIn instead), and no branch ever sets the `isAllIn`
flag (the record update below leaves it at `player.isAllIn`). -/
theorem claim_C7 (room : Room) (req : PlayerActionRequest) (i : Nat) (player : Player)
    (hfind : room.players.findIdx? (fun p => p.id == req.playerId) = some i)
    (hget : room.players.get? i = some player)
    (hin : player.isInHand = true)
    (hturn : room.gameState.currentPlayerIndex = i)
    (hact : req.action = PlayerAction.call) :
    (player.chips < room.gameState.currentBet - player.currentBet →
      GameManager.processPlayerAction room req =
        .error ("Insufficient chips to call", room)) ∧
    (room.gameState.currentBet - player.currentBet ≤ player.chips →
      ∃ room1, GameManager.applyActionStep room req = .ok room1 ∧
        room1.players.get? i = some { player with
          chips := player.chips - (room.gameState.currentBet - player.currentBet),
          currentBet := room.gameState.currentBet,
          totalBet := player.totalBet + (room.gameState.currentBet - player.currentBet),
          lastAction := some PlayerAction.call } ∧
        room1.gameState.pot = room.gameState.pot +
          (room.gameState.currentBet - player.currentBet) ∧
        (∀ j, j ≠ i → room1.players.get? j = room.players.get? j)) := by
  obtain ⟨pid, act, amt⟩ := req
  dsimp only at hfind hact ⊢
  subst hact
  unfold GameManager.processPlayerAction GameManager.applyActionStep
  dsimp only
  rw [hfind]
  dsimp only
  rw [hget]
  dsimp only
  rw [if_neg (show ¬ _ = true by simp [hin, hturn])]
  constructor
  · intro hlt
    rw [if_pos (by omega)]
  · intro hle
    rw [if_neg (by omega)]
    refine ⟨_, rfl, ?_, rfl, ?_⟩
    · rw [List.get?_set_eq, hget]
      cases player
      simp only [Option.map, Option.some.injEq, Player.mk.injEq, and_true,
        true_and]
      norm_num
    · intro j hj
      exact List.get?_set_ne _ _ (Ne.symm hj)

/-- C7 witness: in `c7Room`, player 0 with 10 chips facing a call amount of
50 is rejected rather than allowed to call for their remaining chips. -/
theorem claim_C7_witness :
    GameManager.processPlayerAction c7Room c7Req =
      .error ("Insufficient chips to call", c7Room) :=
  (claim_C7 c7Room c7Req 0 (c7Room.players.getD 0 default) (by decide) (by decide)
    (by decide) (by decide) (by decide)).1 (by decide)

/-! ## Helper lemmas -/

/-- Setting index `i` changes the chip sum by the difference at `i`. -/
theorem sumChips_set (ps : List Player) :
    ∀ (i : Nat) (p w : Player), ps.get? i = some p →
      sumChips (ps.set i w) = sumChips ps - p.chips + w.chips := by
  induction ps with
  | nil => intro i p w h; simp at h
  | cons a l ih =>
    intro i p w h
    cases i with
    | zero =>
      simp only [List.get?_cons_zero, Option.some.injEq] at h
      subst h
      simp [sumChips]
      ring
    | succ n =>
      simp only [List.get?_cons_succ] at h
      simp only [List.set_cons_succ, sumChips, List.map_cons, List.sum_cons]
      have := ih n p w h
      simp only [sumChips] at this
      rw [this]
      ring

/-- Clearing `lastAction` (the start of `advanceHand`) moves no chips. -/
theorem sumChips_lastActionReset (ps : List Player) :
    sumChips (ps.map fun p => if p.isInHand then { p with lastAction := none } else p) =
      sumChips ps := by
  induction ps with
  | nil => rfl
  | cons a l ih =>
    simp only [List.map_cons, sumChips, List.sum_cons] at *
    rw [← ih]
    by_cases h : a.isInHand <;> simp [h]

theorem extraCount_of_le : ∀ (n j : Nat) (r : Int), r ≤ j → extraCount r j n = 0 := by
  intro n
  induction n with
  | zero => intro j r _; rfl
  | succ m ih =>
    intro j r h
    show (if (j : Int) < r then 1 else 0) + extraCount r (j + 1) m = 0
    rw [if_neg (by omega), ih (j + 1) r (by push_cast; omega)]
    ring

theorem extraCount_eq : ∀ (n j : Nat) (r : Int),
    (j : Int) ≤ r → r ≤ (j : Int) + n → extraCount r j n = r - j := by
  intro n
  induction n with
  | zero => intro j r h1 h2; show (0 : Int) = r - j; omega
  | succ m ih =>
    intro j r h1 h2
    show (if (j : Int) < r then 1 else 0) + extraCount r (j + 1) m = r - j
    by_cases hj : (j : Int) < r
    · rw [if_pos hj, ih (j + 1) r (by push_cast; omega) (by push_cast at h2 ⊢; omega)]
      push_cast
      ring
    · rw [if_neg hj, extraCount_of_le m (j + 1) r (by push_cast; omega)]
      omega

/-- Chip total after awarding the distributed shares to the winners at
distinct indices: each of the `n` winners gains `s` plus the extra chip for
positions below the remainder. -/
theorem showdown_award_sum (s r : Int) :
    ∀ (idxs : List Nat) (j : Nat) (ps : List Player),
      idxs.Nodup → (∀ x ∈ idxs, x < ps.length) →
      sumChips ((idxs.zip (PokerEngine.awardChips s r j
          (idxs.map (fun i => ps.getD i default)))).foldl
          (fun acc iw => acc.set iw.1 iw.2) ps) =
        sumChips ps + idxs.length * s + extraCount r j idxs.length := by
  intro idxs
  induction idxs with
  | nil =>
    intro j ps _ _
    simp [PokerEngine.awardChips, extraCount]
  | cons i is ih =>
    intro j ps hnd hlt
    have hilt : i < ps.length := hlt i (List.mem_cons_self i is)
    obtain ⟨pi, hpi⟩ : ∃ p, ps.get? i = some p := by
      rw [List.get?_eq_get hilt]; exact ⟨_, rfl⟩
    have hgdi : ps.getD i default = pi := by
      show (ps.get? i).getD default = pi
      rw [hpi]; rfl
    have hmapeq : is.map (fun x => ps.getD x default) =
        is.map (fun x => (ps.set i ({ pi with chips := pi.chips + s +
          (if (j : Int) < r then 1 else 0) })).getD x default) := by
      apply List.map_congr_left
      intro x hx
      have hxi : i ≠ x := by
        intro hcon
        subst hcon
        exact (List.nodup_cons.mp hnd).1 hx
      show (ps.get? x).getD default = ((ps.set i _).get? x).getD default
      rw [List.get?_set_ne _ _ hxi]
    simp only [List.map_cons, hgdi, PokerEngine.awardChips, List.zip_cons_cons,
      List.foldl_cons]
    rw [hmapeq]
    rw [ih (j + 1) _ (List.nodup_cons.mp hnd).2
      (fun x hx => by rw [List.length_set]; exact hlt x (List.mem_cons_of_mem i hx))]
    rw [sumChips_set ps i pi _ hpi]
    show _ = sumChips ps + (↑is.length + 1) * s +
      ((if (j : Int) < r then 1 else 0) + extraCount r (j + 1) is.length)
    ring

/-- A successful `evalHands` pass keeps the player indices. -/
theorem evalHands_fst (cc : List Card) :
    ∀ (act : List (Nat × Player)) (phs : List (Nat × Hand)),
      PokerEngine.evalHands cc act = .ok phs →
      phs.map Prod.fst = act.map Prod.fst := by
  intro act
  induction act with
  | nil =>
    intro phs h
    cases h
    rfl
  | cons a l ih =>
    intro phs h
    unfold PokerEngine.evalHands at h
    cases he : PokerEngine.evaluateHand (a.2.holeCards ++ cc) with
    | error e => rw [he] at h; exact Except.noConfusion h
    | ok hh =>
      rw [he] at h
      cases hm : PokerEngine.evalHands cc l with
      | error e => rw [hm] at h; exact Except.noConfusion h
      | ok phs' =>
        rw [hm] at h
        have h' : Except.ok ((a.1, hh) :: phs') = Except.ok phs := h
        cases h'
        simp only [List.map_cons]
        rw [ih phs' hm]

/-- The winner indices of `multiWinners` are drawn from the supplied players. -/
theorem multiWinners_fst (cc : List Card) (act : List (Nat × Player))
    (idxs : List Nat) (bh : Hand)
    (h : PokerEngine.multiWinners cc act = .ok (idxs, bh)) :
    ∃ phs : List (Nat × Hand), phs.map Prod.fst = act.map Prod.fst ∧
      List.Sublist idxs (phs.map Prod.fst) := by
  unfold PokerEngine.multiWinners at h
  cases hm : PokerEngine.evalHands cc act with
  | error e => rw [hm] at h; exact Except.noConfusion h
  | ok phs =>
    rw [hm] at h
    have h' : Except.ok ((phs.filter (fun ih2 =>
        PokerEngine.compareHands ih2.2
          (PokerEngine.bestHandScan ((phs.drop 1).map (·.2))
            (phs.headD (0, default)).2) == 0)).map Prod.fst,
        PokerEngine.bestHandScan ((phs.drop 1).map (·.2))
          (phs.headD (0, default)).2) = Except.ok (idxs, bh) := h
    cases h'
    exact ⟨phs, evalHands_fst cc act phs hm,
      (List.filter_sublist phs).map Prod.fst⟩

/-- `determineWinners` returns pairwise-distinct indices of actual players. -/
theorem determineWinners_idx_facts (ps : List Player) (cc : List Card)
    (idxs : List Nat) (bh : Hand)
    (h : PokerEngine.determineWinners ps cc = .ok (idxs, bh)) :
    idxs.Nodup ∧ ∀ i ∈ idxs, i < ps.length := by
  have hsub : ∀ (l : List Nat), List.Sublist l (List.range ps.length) →
      l.Nodup ∧ ∀ i ∈ l, i < ps.length := by
    intro l hl
    exact ⟨hl.nodup (List.nodup_range _),
      fun i hi => List.mem_range.mp (hl.subset hi)⟩
  have hact : List.Sublist ((ps.enum.filter (fun ip => ip.2.isInHand)).map Prod.fst)
      (List.range ps.length) := by
    have h1 : List.Sublist (ps.enum.filter (fun ip => ip.2.isInHand)) ps.enum :=
      List.filter_sublist _
    have h2 := h1.map Prod.fst
    rw [List.enum_map_fst] at h2
    exact h2
  unfold PokerEngine.determineWinners at h
  cases hA : ps.enum.filter (fun ip => ip.2.isInHand) with
  | nil => rw [hA] at h; exact Except.noConfusion h
  | cons ip rest =>
    rw [hA] at h
    rw [hA] at hact
    cases rest with
    | nil =>
      have h2 : (do
          let hh ← PokerEngine.evaluateHand (ip.2.holeCards ++ cc)
          Except.ok (([ip.1], hh) : List Nat × Hand)) = Except.ok (idxs, bh) := h
      cases he : PokerEngine.evaluateHand (ip.2.holeCards ++ cc) with
      | error e => rw [he] at h2; exact Except.noConfusion h2
      | ok hh =>
        rw [he] at h2
        have h3 : Except.ok ([ip.1], hh) = Except.ok (idxs, bh) := h2
        cases h3
        exact hsub _ hact
    | cons ip2 rest2 =>
      have h2 : PokerEngine.multiWinners cc (ip :: ip2 :: rest2) =
          Except.ok (idxs, bh) := h
      obtain ⟨phs, hfst, hsubl⟩ := multiWinners_fst cc _ idxs bh h2
      rw [hfst] at hsubl
      exact hsub _ (hsubl.trans hact)

/-- `processShowdown` conserves chips: the total awarded by `distributePot`
equals the pot, which is then zeroed. -/
theorem processShowdown_conserves (room r' : Room)
    (hpot : 0 ≤ room.gameState.pot)
    (h : GameManager.processShowdown room = .ok r') :
    chipSum r' = chipSum room := by
  unfold GameManager.processShowdown at h
  cases hdw : PokerEngine.determineWinners room.players
      room.gameState.communityCards with
  | error e => rw [hdw] at h; exact Except.noConfusion h
  | ok wh =>
    rw [hdw] at h
    obtain ⟨idxs, bh⟩ := wh
    obtain ⟨hnd, hlt⟩ := determineWinners_idx_facts _ _ _ _ hdw
    dsimp only at h
    cases h
    cases idxs with
    | nil =>
      simp [chipSum, PokerEngine.distributePot]
    | cons i is =>
      unfold PokerEngine.distributePot
      rw [if_neg (by simp)]
      simp only [chipSum]
      rw [showdown_award_sum _ _ (i :: is) 0 room.players hnd hlt]
      have hn : ((i :: is).map (fun j => room.players.getD j default)).length =
          (i :: is).length := List.length_map _ _
      rw [hn]
      set n : Nat := (i :: is).length with hdefn
      have hnpos : 0 < (n : Int) := by
        have h0 : 0 < n := by simp [hdefn]
        omega
      have hr0 : 0 ≤ Int.tmod room.gameState.pot n := by
        rw [Int.tmod_eq_emod hpot (by omega)]
        exact Int.emod_nonneg _ (by omega)
      have hrn : Int.tmod room.gameState.pot n ≤ (0 : Int) + n := by
        rw [Int.tmod_eq_emod hpot (by omega)]
        have := Int.emod_lt_of_pos room.gameState.pot hnpos
        omega
      rw [extraCount_eq n 0 _ (by exact_mod_cast hr0) (by exact_mod_cast hrn)]
      rw [Int.fdiv_eq_ediv _ (by omega), Int.tmod_eq_emod hpot (by omega)]
      have hde := Int.ediv_add_emod room.gameState.pot n
      push_cast
      omega

/-- Dealing a street touches neither stacks nor pot. -/
theorem dealStreet_pres (room : Room) (ph : GamePhase) (n : Nat) (r' : Room)
    (h : GameManager.dealStreet room ph n = .ok r') :
    r'.players = room.players ∧ r'.gameState.pot = room.gameState.pot := by
  unfold GameManager.dealStreet at h
  dsimp only at h
  cases hdc : PokerEngine.dealCommunityCards room.deck n true with
  | error e => rw [hdc] at h; exact Except.noConfusion h
  | ok cr =>
    rw [hdc] at h
    cases h
    exact ⟨rfl, rfl⟩

/-- Advancing the hand (including an automatic showdown from the river)
conserves chips, provided the pot is non-negative. -/
theorem advanceHand_conserves (room r' : Room)
    (hpot : 0 ≤ room.gameState.pot)
    (h : GameManager.advanceHand room = .ok r') :
    chipSum r' = chipSum room := by
  unfold GameManager.advanceHand at h
  dsimp only at h
  cases hph : room.gameState.phase <;> rw [hph] at h
  case waiting =>
    cases h
    simp only [chipSum, GameManager.setPostPhaseActor]
    rw [sumChips_lastActionReset]
  case preFlop =>
    obtain ⟨hp, hq⟩ := dealStreet_pres _ _ _ _ h
    simp only [chipSum, hp, hq]
    rw [sumChips_lastActionReset]
  case flop =>
    obtain ⟨hp, hq⟩ := dealStreet_pres _ _ _ _ h
    simp only [chipSum, hp, hq]
    rw [sumChips_lastActionReset]
  case turn =>
    obtain ⟨hp, hq⟩ := dealStreet_pres _ _ _ _ h
    simp only [chipSum, hp, hq]
    rw [sumChips_lastActionReset]
  case river =>
    have hc := processShowdown_conserves _ _ (by exact hpot) h
    rw [hc]
    simp only [chipSum]
    rw [sumChips_lastActionReset]
  case showdown =>
    cases h
    simp only [chipSum]
    rw [sumChips_lastActionReset]
  case handComplete =>
    cases h
    simp only [chipSum, GameManager.setPostPhaseActor]
    rw [sumChips_lastActionReset]

/-- Every successful action application moves chips only between the acting
player's stack and the pot, and keeps the pot non-negative. -/
theorem applyActionStep_conserves (room r1 : Room) (req : PlayerActionRequest)
    (hpot : 0 ≤ room.gameState.pot)
    (hmin : 0 < room.gameState.minRaise)
    (hchips : ∀ p ∈ room.players, 0 ≤ p.chips)
    (hbet : ∀ p ∈ room.players,
      p.currentBet - room.gameState.currentBet ≤ room.gameState.pot)
    (h : GameManager.applyActionStep room req = .ok r1) :
    chipSum r1 = chipSum room ∧ 0 ≤ r1.gameState.pot := by
  unfold GameManager.applyActionStep at h
  cases hfind : room.players.findIdx? (fun p => p.id == req.playerId) with
  | none => rw [hfind] at h; exact Except.noConfusion h
  | some i =>
    rw [hfind] at h
    dsimp only at h
    cases hget : room.players.get? i with
    | none => rw [hget] at h; exact Except.noConfusion h
    | some player =>
      rw [hget] at h
      dsimp only at h
      have hpm : player ∈ room.players := List.get?_mem hget
      by_cases hguard :
          (!player.isInHand || decide (room.gameState.currentPlayerIndex ≠ i)) = true
      · rw [if_pos hguard] at h; exact Except.noConfusion h
      · rw [if_neg hguard] at h
        cases hreq : req.action <;> rw [hreq] at h <;> dsimp only at h
        case neg.fold =>
          cases h
          refine ⟨?_, hpot⟩
          simp only [chipSum]
          rw [sumChips_set room.players i player _ hget]
          ring
        case neg.check =>
          by_cases hc : room.gameState.currentBet > player.currentBet
          · rw [if_pos hc] at h; exact Except.noConfusion h
          · rw [if_neg hc] at h
            cases h
            refine ⟨?_, hpot⟩
            simp only [chipSum]
            rw [sumChips_set room.players i player _ hget]
            ring
        case neg.call =>
          by_cases hc : room.gameState.currentBet - player.currentBet > player.chips
          · rw [if_pos hc] at h; exact Except.noConfusion h
          · rw [if_neg hc] at h
            cases h
            have hb := hbet player hpm
            constructor
            · simp only [chipSum]
              rw [sumChips_set room.players i player _ hget]
              ring
            · show 0 ≤ room.gameState.pot +
                (room.gameState.currentBet - player.currentBet)
              omega
        case neg.raise =>
          cases hamt : req.amount with
          | none => rw [hamt] at h; exact Except.noConfusion h
          | some a =>
            rw [hamt] at h
            dsimp only at h
            by_cases hz : a = 0 ∨ a < room.gameState.minRaise
            · rw [if_pos hz] at h; exact Except.noConfusion h
            · rw [if_neg hz] at h
              by_cases hcc : room.gameState.currentBet + a - player.currentBet >
                  player.chips
              · rw [if_pos hcc] at h; exact Except.noConfusion h
              · rw [if_neg hcc] at h
                cases h
                have hb := hbet player hpm
                push_neg at hz
                constructor
                · simp only [chipSum]
                  rw [sumChips_set room.players i player _ hget]
                  ring
                · show 0 ≤ room.gameState.pot +
                    (room.gameState.currentBet + a - player.currentBet)
                  omega
        case neg.allIn =>
          have hc := hchips player hpm
          by_cases hnb : player.currentBet + player.chips > room.gameState.currentBet
          · rw [if_pos hnb] at h
            cases h
            constructor
            · simp only [chipSum]
              rw [sumChips_set room.players i player _ hget]
              ring
            · show 0 ≤ room.gameState.pot + player.chips
              omega
          · rw [if_neg hnb] at h
            cases h
            constructor
            · simp only [chipSum]
              rw [sumChips_set room.players i player _ hget]
              ring
            · show 0 ≤ room.gameState.pot + player.chips
              omega

/-- `postBlinds` only transfers the (capped) blind amounts into the pot. -/
theorem postBlinds_conserves (room : Room) :
    chipSum (GameManager.postBlinds room) = chipSum room := by
  have step : ∀ (ps : List Player) (pot amt : Int) (i : Nat) (p p1 : Player),
      ps.get? i = some p → p1.chips = p.chips - amt →
      sumChips (ps.set i p1) + (pot + amt) = sumChips ps + pot := by
    intro ps pot amt i p p1 hg hc
    rw [sumChips_set ps i p p1 hg, hc]
    ring
  unfold GameManager.postBlinds
  dsimp only
  cases h1 : room.players.get? room.gameState.smallBlindIndex with
  | none =>
    dsimp only
    cases h2 : room.players.get? room.gameState.bigBlindIndex with
    | none => rfl
    | some q =>
      dsimp only
      by_cases hqa : q.isActive = true
      · rw [if_pos hqa]
        simp only [chipSum]
        exact step _ _ _ _ _ _ h2 rfl
      · rw [if_neg hqa]
  | some p =>
    dsimp only
    by_cases hpa : p.isActive = true
    · rw [if_pos hpa]
      dsimp only
      cases h2 : (room.players.set room.gameState.smallBlindIndex
          { p with chips := p.chips - min room.settings.smallBlind p.chips,
                   currentBet := min room.settings.smallBlind p.chips,
                   totalBet := min room.settings.smallBlind p.chips,
                   isSmallBlind := true }).get? room.gameState.bigBlindIndex with
      | none =>
        simp only [chipSum]
        exact step _ _ _ _ _ _ h1 rfl
      | some q =>
        dsimp only
        by_cases hqa : q.isActive = true
        · rw [if_pos hqa]
          simp only [chipSum]
          rw [step _ _ _ _ _ _ h2 rfl]
          exact step _ _ _ _ _ _ h1 rfl
        · rw [if_neg hqa]
          simp only [chipSum]
          exact step _ _ _ _ _ _ h1 rfl
    · rw [if_neg hpa]
      cases h2 : room.players.get? room.gameState.bigBlindIndex with
      | none => rfl
      | some q =>
        dsimp only
        by_cases hqa : q.isActive = true
        · rw [if_pos hqa]
          simp only [chipSum]
          exact step _ _ _ _ _ _ h2 rfl
        · rw [if_neg hqa]

/-- C2: chip conservation.  (1) `postBlinds` preserves
`sum(chips) + pot`; (2) every successful `processPlayerAction` — including
its automatic phase advancement and the showdown pot distribution — preserves
it, under the reachable-state facts that the pot is non-negative, the minimum
raise is positive, stacks are non-negative and no player's `currentBet`
exceeds the table bet by more than the pot; (3) `processShowdown` itself
awards exactly the pot.  The backend keeps no separate side-pot accounts, so
`sum(sidePots.amount)` is identically zero. -/
theorem claim_C2 :
    (∀ room : Room, chipSum (GameManager.postBlinds room) = chipSum room) ∧
    (∀ (room r' : Room) (req : PlayerActionRequest),
      0 ≤ room.gameState.pot →
      0 < room.gameState.minRaise →
      (∀ p ∈ room.players, 0 ≤ p.chips) →
      (∀ p ∈ room.players,
        p.currentBet - room.gameState.currentBet ≤ room.gameState.pot) →
      GameManager.processPlayerAction room req = .ok r' →
      chipSum r' = chipSum room) ∧
    (∀ room r' : Room, 0 ≤ room.gameState.pot →
      GameManager.processShowdown room = .ok r' →
      chipSum r' = chipSum room) := by
  refine ⟨postBlinds_conserves, ?_, processShowdown_conserves⟩
  intro room r' req h1 h2 h3 h4 hp
  unfold GameManager.processPlayerAction at hp
  cases hstep : GameManager.applyActionStep room req with
  | error e => rw [hstep] at hp; exact Except.noConfusion hp
  | ok room1 =>
    rw [hstep] at hp
    dsimp only at hp
    obtain ⟨hcs, hpos⟩ := applyActionStep_conserves room room1 req h1 h2 h3 h4 hstep
    by_cases hadv : GameManager.shouldAdvanceHand room1 = true
    · rw [if_pos hadv] at hp
      rw [advanceHand_conserves room1 r' hpos hp]
      exact hcs
    · rw [if_neg hadv] at hp
      cases hp
      rw [← hcs]
      rfl

/-- C2 witness: a concrete call in `c2Room` (player 0 calls 10 more into a
30-chip pot) conserves the chip total. -/
theorem claim_C2_witness :
    (0 ≤ c2Room.gameState.pot) ∧
    ∃ r', GameManager.processPlayerAction c2Room c2Req = .ok r' ∧
      chipSum r' = chipSum c2Room := by
  refine ⟨by decide, ?_⟩
  cases hres : GameManager.processPlayerAction c2Room c2Req with
  | error e =>
    have hok : (GameManager.processPlayerAction c2Room c2Req).toOption.isSome =
        true := by decide
    rw [hres] at hok
    simp [Except.toOption] at hok
  | ok r' =>
    exact ⟨r', rfl, claim_C2.2.1 c2Room r' c2Req (by decide) (by decide)
      (by decide) (by decide) hres⟩

/-- Comparing a card list against itself yields 0. -/
theorem compareCardRanks_self : ∀ (l : List Card),
    PokerEngine.compareCardRanks l l = 0 := by
  intro l
  induction l with
  | nil => rfl
  | cons a l ih =>
    unfold PokerEngine.compareCardRanks
    rw [if_neg (by omega)]
    exact ih

theorem compareHands_self (h : Hand) : PokerEngine.compareHands h h = 0 := by
  unfold PokerEngine.compareHands
  rw [if_neg (by omega)]
  exact compareCardRanks_self _

theorem compareCardRanks_antisymm : ∀ (l1 l2 : List Card),
    PokerEngine.compareCardRanks l1 l2 = -PokerEngine.compareCardRanks l2 l1 := by
  intro l1
  induction l1 with
  | nil =>
    intro l2
    cases l2 <;> rfl
  | cons a as ih =>
    intro l2
    cases l2 with
    | nil => rfl
    | cons b bs =>
      unfold PokerEngine.compareCardRanks
      by_cases hab : a.rank ≠ b.rank
      · rw [if_pos hab, if_pos (Ne.symm hab)]
        push_cast
        ring
      · rw [if_neg hab, if_neg (fun hc => hab (Ne.symm hc))]
        exact ih bs

/-- `compareHands` is antisymmetric up to sign. -/
theorem compareHands_antisymm (h1 h2 : Hand) :
    PokerEngine.compareHands h1 h2 = -PokerEngine.compareHands h2 h1 := by
  unfold PokerEngine.compareHands
  by_cases hr : h1.rank ≠ h2.rank
  · rw [if_pos hr, if_pos (Ne.symm hr)]
    push_cast
    ring
  · rw [if_neg hr, if_neg (fun hc => hr (Ne.symm hc))]
    exact compareCardRanks_antisymm _ _

theorem compareCardRanks_trans : ∀ (l1 l2 l3 : List Card),
    l1.length = l2.length → l2.length = l3.length →
    PokerEngine.compareCardRanks l1 l2 ≤ 0 →
    PokerEngine.compareCardRanks l2 l3 ≤ 0 →
    PokerEngine.compareCardRanks l1 l3 ≤ 0 := by
  intro l1
  induction l1 with
  | nil =>
    intro l2 l3 he1 he2 _ _
    cases l3 with
    | nil => exact le_refl _
    | cons c cs => simp at he1 he2; omega
  | cons a as ih =>
    intro l2 l3 he1 he2 h12 h23
    cases l2 with
    | nil => simp at he1
    | cons b bs =>
      cases l3 with
      | nil => simp at he2
      | cons c cs =>
        simp only [List.length_cons, Nat.succ.injEq] at he1 he2
        unfold PokerEngine.compareCardRanks at h12 h23 ⊢
        by_cases hab : a.rank ≠ b.rank <;> by_cases hbc : b.rank ≠ c.rank
        · rw [if_pos hab] at h12
          rw [if_pos hbc] at h23
          rw [if_pos (by omega)]
          omega
        · rw [if_pos hab] at h12
          rw [if_neg hbc] at h23
          push_neg at hbc
          rw [if_pos (by omega)]
          omega
        · rw [if_neg hab] at h12
          rw [if_pos hbc] at h23
          push_neg at hab
          rw [if_pos (by omega)]
          omega
        · rw [if_neg hab] at h12
          rw [if_neg hbc] at h23
          push_neg at hab hbc
          rw [if_neg (by omega)]
          exact ih bs cs he1 he2 h12 h23

/-- `compareHands` is transitive on hands with exactly 5 ranked cards (its
card-by-card loop truncates to the shorter list, so this requires the length
facts). -/
theorem compareHands_trans (h1 h2 h3 : Hand)
    (e1 : h1.totalCards = 5) (e2 : h2.totalCards = 5) (e3 : h3.totalCards = 5)
    (h12 : PokerEngine.compareHands h1 h2 ≤ 0)
    (h23 : PokerEngine.compareHands h2 h3 ≤ 0) :
    PokerEngine.compareHands h1 h3 ≤ 0 := by
  unfold Hand.totalCards at e1 e2 e3
  unfold PokerEngine.compareHands at h12 h23 ⊢
  by_cases hab : h1.rank ≠ h2.rank <;> by_cases hbc : h2.rank ≠ h3.rank
  · rw [if_pos hab] at h12
    rw [if_pos hbc] at h23
    rw [if_pos (by omega)]
    omega
  · rw [if_pos hab] at h12
    rw [if_neg hbc] at h23
    push_neg at hbc
    rw [if_pos (by omega)]
    omega
  · rw [if_neg hab] at h12
    rw [if_pos hbc] at h23
    push_neg at hab
    rw [if_pos (by omega)]
    omega
  · rw [if_neg hab] at h12
    rw [if_neg hbc] at h23
    push_neg at hab hbc
    rw [if_neg (by omega)]
    exact compareCardRanks_trans _ _ _ (by omega) (by omega) h12 h23

/-- For `1 ≤ k ≤ |arr|`, `getCombinations` returns a non-empty list whose
members all have length `k`. -/
theorem getCombinations_spec {α : Type} :
    ∀ (arr : List α) (k : Nat), 1 ≤ k → k ≤ arr.length →
      PokerEngine.getCombinations arr k ≠ [] ∧
      ∀ c ∈ PokerEngine.getCombinations arr k, c.length = k := by
  intro arr
  induction arr with
  | nil =>
    intro k h1 h2
    simp at h2
    omega
  | cons a l ih =>
    intro k h1 h2
    unfold PokerEngine.getCombinations
    by_cases hk1 : k = 1
    · subst hk1
      rw [if_pos rfl]
      constructor
      · simp
      · intro c hc
        obtain ⟨x, -, rfl⟩ := List.mem_map.mp hc
        rfl
    · rw [if_neg hk1]
      by_cases hkl : k = (a :: l).length
      · rw [if_pos hkl]
        constructor
        · simp
        · intro c hc
          rw [List.mem_singleton] at hc
          subst hc
          omega
      · rw [if_neg hkl]
        dsimp only
        have hk2 : 2 ≤ k := by omega
        have hkll : k ≤ l.length := by
          simp only [List.length_cons] at h2 hkl
          omega
        have ih1 := ih (k - 1) (by omega) (by omega)
        have ih2 := ih k (by omega) hkll
        constructor
        · intro hemp
          rw [List.append_eq_nil] at hemp
          exact ih1.1 (List.map_eq_nil.mp hemp.1)
        · intro c hc
          rw [List.mem_append] at hc
          rcases hc with hc | hc
          · obtain ⟨c', hc', rfl⟩ := List.mem_map.mp hc
            have hl := ih1.2 c' hc'
            simp only [List.length_cons, hl]
            omega
          · exact ih2.2 c hc

/-- `jsInsert` permutes. -/
theorem jsInsert_perm {α : Type} (cmp : α → α → Int) (x : α) (l : List α) :
    List.Perm (jsInsert cmp x l) (x :: l) := by
  induction l with
  | nil => exact List.Perm.refl _
  | cons y ys ih =>
    unfold jsInsert
    by_cases h : cmp x y ≤ 0
    · rw [if_pos h]
    · rw [if_neg h]
      exact (List.Perm.cons y ih).trans (List.Perm.swap x y ys)

/-- `jsSort` is a permutation of its input. -/
theorem jsSort_perm {α : Type} (cmp : α → α → Int) (l : List α) :
    List.Perm (jsSort cmp l) l := by
  induction l with
  | nil => exact List.Perm.refl _
  | cons x xs ih =>
    exact (jsInsert_perm cmp x (jsSort cmp xs)).trans (List.Perm.cons x ih)

theorem jsSort_length {α : Type} (cmp : α → α → Int) (l : List α) :
    (jsSort cmp l).length = l.length :=
  (jsSort_perm cmp l).length_eq

theorem jsSort_mem {α : Type} (cmp : α → α → Int) (l : List α) (a : α) :
    a ∈ jsSort cmp l ↔ a ∈ l :=
  (jsSort_perm cmp l).mem_iff

theorem sum_map_add_nat {β : Type} (l : List β) (f g : β → Nat) :
    (l.map (fun b => f b + g b)).sum = (l.map f).sum + (l.map g).sum := by
  induction l with
  | nil => rfl
  | cons b bs ih => simp [ih]; omega

theorem sum_ite_zero (v : Nat) : ∀ (ks : List Nat), v ∉ ks →
    ((ks.map (fun r => if v = r then 1 else 0)).sum) = 0 := by
  intro ks
  induction ks with
  | nil => intro _; rfl
  | cons r rs ih =>
    intro hv
    rw [List.mem_cons] at hv
    push_neg at hv
    simp only [List.map_cons, List.sum_cons, if_neg hv.1, ih hv.2]

theorem sum_ite_one (v : Nat) : ∀ (ks : List Nat), ks.Nodup → v ∈ ks →
    ((ks.map (fun r => if v = r then 1 else 0)).sum) = 1 := by
  intro ks
  induction ks with
  | nil => intro _ h; simp at h
  | cons r rs ih =>
    intro hnd hv
    rw [List.nodup_cons] at hnd
    rw [List.mem_cons] at hv
    by_cases hvr : v = r
    · subst hvr
      simp only [List.map_cons, List.sum_cons, if_pos rfl, sum_ite_zero v rs hnd.1]
      simp
    · simp only [List.map_cons, List.sum_cons, if_neg hvr,
        ih hnd.2 (hv.resolve_left hvr)]

/-- Partitioning a list by a complete, duplicate-free family of key values
accounts for every element exactly once. -/
theorem sum_filter_key {α : Type} (key : α → Nat) :
    ∀ (l : List α) (ks : List Nat), ks.Nodup → (∀ x ∈ l, key x ∈ ks) →
      (ks.map (fun r => (l.filter (fun x => key x == r)).length)).sum = l.length := by
  intro l
  induction l with
  | nil => intro ks _ _; simp
  | cons x xs ih =>
    intro ks hnd hcov
    have hx := hcov x (List.mem_cons_self x xs)
    have hrec := ih ks hnd (fun y hy => hcov y (List.mem_cons_of_mem _ hy))
    have hpt : ∀ r ∈ ks, ((x :: xs).filter (fun z => key z == r)).length =
        (if key x = r then 1 else 0) + (xs.filter (fun z => key z == r)).length := by
      intro r _
      by_cases h : key x = r
      · simp [List.filter_cons, h]
        omega
      · simp [List.filter_cons, h]
    rw [List.map_congr_left hpt, sum_map_add_nat, sum_ite_one (key x) ks hnd hx,
      hrec]
    simp [Nat.add_comm]

theorem countRanks_fst (ranks : List Nat) :
    (PokerEngine.countRanks ranks).map Prod.fst =
      jsSort (fun (a b : Nat) => (a : Int) - b) ranks.dedup := by
  unfold PokerEngine.countRanks
  rw [List.map_map]
  exact List.map_id _

theorem countRanks_fst_nodup (ranks : List Nat) :
    ((PokerEngine.countRanks ranks).map Prod.fst).Nodup := by
  rw [countRanks_fst]
  exact ((jsSort_perm _ _).nodup_iff).mpr (List.nodup_dedup ranks)

theorem countRanks_cover (ranks : List Nat) (r : Nat) (h : r ∈ ranks) :
    r ∈ (PokerEngine.countRanks ranks).map Prod.fst := by
  rw [countRanks_fst, jsSort_mem, List.mem_dedup]
  exact h

theorem countRanks_honest (ranks : List Nat) :
    ∀ rc ∈ PokerEngine.countRanks ranks,
      rc.2 = (ranks.filter (· == rc.1)).length := by
  intro rc hrc
  unfold PokerEngine.countRanks at hrc
  obtain ⟨r, -, rfl⟩ := List.mem_map.mp hrc
  rfl

/-- The rank-group loop of `separateCardsByRank` distributes every group to
either the primary cards or the kickers. -/
theorem separateFold_len (cards : List Card) (tc : List Nat) :
    ∀ (rcs : List (Nat × Nat)) (acc : List Card × List Card × Nat),
      (rcs.foldl (PokerEngine.separateStep cards tc) acc).1.length +
        (rcs.foldl (PokerEngine.separateStep cards tc) acc).2.1.length =
      acc.1.length + acc.2.1.length +
        (rcs.map (fun rc => (cards.filter (fun c => c.rank == rc.1)).length)).sum := by
  intro rcs
  induction rcs with
  | nil => intro acc; simp
  | cons rc rest ih =>
    intro acc
    rw [List.foldl_cons, ih]
    show (PokerEngine.separateStep cards tc acc rc).1.length +
        (PokerEngine.separateStep cards tc acc rc).2.1.length + _ = _
    unfold PokerEngine.separateStep
    by_cases h : (decide (acc.2.2 < tc.length) &&
        rc.2.beq (tc.getD acc.2.2 0)) = true
    · rw [if_pos h]
      simp only [List.length_append, List.map_cons, List.sum_cons]
      omega
    · rw [if_neg h]
      simp only [List.length_append, List.map_cons, List.sum_cons]
      omega

/-- On a 5-card hand whose rank table covers all ranks, `separateCardsByRank`
always returns 5 cards in total (primary plus truncated kickers). -/
theorem separate_total (cards : List Card) (rc : List (Nat × Nat)) (tc : List Nat)
    (hnd : (rc.map Prod.fst).Nodup)
    (hcov : ∀ x ∈ cards, x.rank ∈ rc.map Prod.fst)
    (h5 : cards.length = 5) :
    (PokerEngine.separateCardsByRank cards rc tc).1.length +
      (PokerEngine.separateCardsByRank cards rc tc).2.length = 5 := by
  unfold PokerEngine.separateCardsByRank
  dsimp only
  have hfold := separateFold_len cards tc
    (jsSort (fun a b =>
      let countDiff := ((b.2 : Int)) - a.2
      if countDiff ≠ 0 then countDiff else ((b.1 : Int)) - a.1) rc) ([], [], 0)
  have hsum : ((jsSort (fun a b =>
      let countDiff := ((b.2 : Int)) - a.2
      if countDiff ≠ 0 then countDiff else ((b.1 : Int)) - a.1) rc).map
        (fun rcp => (cards.filter (fun c => c.rank == rcp.1)).length)).sum =
      cards.length := by
    rw [((jsSort_perm _ rc).map
      (fun rcp => (cards.filter (fun c => c.rank == rcp.1)).length)).sum_eq]
    have hmm : (rc.map (fun rcp => (cards.filter
        (fun c => c.rank == rcp.1)).length)).sum =
        ((rc.map Prod.fst).map (fun r => (cards.filter
          (fun c => c.rank == r)).length)).sum := by
      rw [List.map_map]
      rfl
    rw [hmm]
    exact sum_filter_key (fun c => c.rank) cards (rc.map Prod.fst) hnd hcov
  rw [hsum, h5] at hfold
  simp only [List.length_nil, Nat.zero_add] at hfold
  simp only [List.length_take, jsSort_length]
  omega

theorem filter_rank_len (r : Nat) : ∀ (cards : List Card),
    (cards.filter (fun c => c.rank == r)).length =
      ((cards.map (·.rank)).filter (· == r)).length := by
  intro cards
  induction cards with
  | nil => rfl
  | cons c cs ih =>
    by_cases h : c.rank = r
    · simp [List.filter_cons, h] at ih ⊢
      omega
    · simp [List.filter_cons, h] at ih ⊢
      exact ih

theorem separate_pair32 (cards : List Card) (ra rb : Nat) :
    (PokerEngine.separateCardsByRank cards [(ra, 3), (rb, 2)] [3, 2]).1.length =
      (cards.filter (fun c => c.rank == ra)).length +
        (cards.filter (fun c => c.rank == rb)).length ∧
    (PokerEngine.separateCardsByRank cards [(ra, 3), (rb, 2)] [3, 2]).2 = [] := by
  unfold PokerEngine.separateCardsByRank
  have hsort : jsSort (fun a b =>
      let countDiff := ((b.2 : Int)) - a.2
      if countDiff ≠ 0 then countDiff else ((b.1 : Int)) - a.1)
      [(ra, (3 : Nat)), (rb, 2)] = [(ra, 3), (rb, 2)] := by
    show jsInsert _ (ra, 3) [(rb, 2)] = _
    simp only [jsInsert]
    norm_num
  rw [hsort]
  dsimp only
  have hfold : ([(ra, (3 : Nat)), (rb, 2)].foldl
      (PokerEngine.separateStep cards [3, 2]) ([], [], 0)) =
      (cards.filter (fun c => c.rank == ra) ++
        cards.filter (fun c => c.rank == rb), [], 2) := by
    simp only [List.foldl_cons, List.foldl_nil]
    unfold PokerEngine.separateStep
    norm_num
  rw [hfold]
  dsimp only
  constructor
  · rw [jsSort_length, List.length_append]
  · show List.take _ [] = []
    exact List.take_nil

theorem separate_pair23 (cards : List Card) (ra rb : Nat) :
    (PokerEngine.separateCardsByRank cards [(ra, 2), (rb, 3)] [3, 2]).1.length =
      (cards.filter (fun c => c.rank == rb)).length +
        (cards.filter (fun c => c.rank == ra)).length ∧
    (PokerEngine.separateCardsByRank cards [(ra, 2), (rb, 3)] [3, 2]).2 = [] := by
  unfold PokerEngine.separateCardsByRank
  have hsort : jsSort (fun a b =>
      let countDiff := ((b.2 : Int)) - a.2
      if countDiff ≠ 0 then countDiff else ((b.1 : Int)) - a.1)
      [(ra, (2 : Nat)), (rb, 3)] = [(rb, 3), (ra, 2)] := by
    show jsInsert _ (ra, 2) [(rb, 3)] = _
    simp only [jsInsert]
    norm_num
  rw [hsort]
  dsimp only
  have hfold : ([(rb, (3 : Nat)), (ra, 2)].foldl
      (PokerEngine.separateStep cards [3, 2]) ([], [], 0)) =
      (cards.filter (fun c => c.rank == rb) ++
        cards.filter (fun c => c.rank == ra), [], 2) := by
    simp only [List.foldl_cons, List.foldl_nil]
    unfold PokerEngine.separateStep
    norm_num
  rw [hfold]
  dsimp only
  constructor
  · rw [jsSort_length, List.length_append]
  · show List.take _ [] = []
    exact List.take_nil

/-- Under the full-house guard (`counts = 3 :: 2 :: _`) the rank table has
exactly two groups of sizes 3 and 2, both of which match the `[3, 2]`
targets, so all five cards become primary and no kickers remain. -/
theorem fullhouse_primary (cards : List Card) (h5 : cards.length = 5)
    (h3 : (jsSort (fun (a b : Nat) => (b : Int) - a)
      ((PokerEngine.countRanks (cards.map (·.rank))).map (·.2))).headD 0 = 3)
    (h2 : (jsSort (fun (a b : Nat) => (b : Int) - a)
      ((PokerEngine.countRanks (cards.map (·.rank))).map (·.2))).getD 1 0 = 2) :
    (PokerEngine.separateCardsByRank cards
      (PokerEngine.countRanks (cards.map (·.rank))) [3, 2]).1.length = 5 ∧
    (PokerEngine.separateCardsByRank cards
      (PokerEngine.countRanks (cards.map (·.rank))) [3, 2]).2 = [] := by
  have honest := countRanks_honest (cards.map (·.rank))
  have hvsum : ((PokerEngine.countRanks (cards.map (·.rank))).map (·.2)).sum = 5 := by
    have hmap : (PokerEngine.countRanks (cards.map (·.rank))).map (·.2) =
        (PokerEngine.countRanks (cards.map (·.rank))).map
          (fun rc => ((cards.map (·.rank)).filter (· == rc.1)).length) :=
      List.map_congr_left (fun rc hrc => honest rc hrc)
    rw [hmap]
    have hmm : ((PokerEngine.countRanks (cards.map (·.rank))).map
        (fun rc => ((cards.map (·.rank)).filter (· == rc.1)).length)).sum =
        (((PokerEngine.countRanks (cards.map (·.rank))).map Prod.fst).map
          (fun r => ((cards.map (·.rank)).filter (· == r)).length)).sum := by
      rw [List.map_map]
      rfl
    rw [hmm]
    rw [sum_filter_key (fun x => x) (cards.map (·.rank)) _
      (countRanks_fst_nodup (cards.map (·.rank)))
      (fun x hx => countRanks_cover (cards.map (·.rank)) x hx)]
    rw [List.length_map]
    exact h5
  have hvpos : ∀ v ∈ (PokerEngine.countRanks (cards.map (·.rank))).map (·.2),
      0 < v := by
    intro v hv
    obtain ⟨rc, hrc, rfl⟩ := List.mem_map.mp hv
    rw [honest rc hrc]
    have hr1 : rc.1 ∈ cards.map (·.rank) := by
      have hmf : rc.1 ∈ (PokerEngine.countRanks (cards.map (·.rank))).map Prod.fst :=
        List.mem_map_of_mem Prod.fst hrc
      rw [countRanks_fst, jsSort_mem, List.mem_dedup] at hmf
      exact hmf
    exact List.length_pos_of_mem (List.mem_filter.mpr ⟨hr1, by simp⟩)
  have hperm : List.Perm (jsSort (fun (a b : Nat) => (b : Int) - a)
      ((PokerEngine.countRanks (cards.map (·.rank))).map (·.2)))
      ((PokerEngine.countRanks (cards.map (·.rank))).map (·.2)) := jsSort_perm _ _
  have hcsum := hperm.sum_eq.trans hvsum
  have hcpos : ∀ v ∈ jsSort (fun (a b : Nat) => (b : Int) - a)
      ((PokerEngine.countRanks (cards.map (·.rank))).map (·.2)), 0 < v :=
    fun v hv => hvpos v (hperm.subset hv)
  -- pin down the sorted count list as [3, 2]
  have hshape : jsSort (fun (a b : Nat) => (b : Int) - a)
      ((PokerEngine.countRanks (cards.map (·.rank))).map (·.2)) = [3, 2] := by
    cases hc : jsSort (fun (a b : Nat) => (b : Int) - a)
        ((PokerEngine.countRanks (cards.map (·.rank))).map (·.2)) with
    | nil => rw [hc] at h3; simp at h3
    | cons c1 tl =>
      rw [hc] at h3 h2 hcsum hcpos
      simp only [List.headD_cons] at h3
      subst h3
      cases tl with
      | nil => simp [List.getD] at h2
      | cons c2 tl2 =>
        simp only [List.getD_cons_succ, List.getD_cons_zero] at h2
        subst h2
        simp only [List.sum_cons] at hcsum
        cases tl2 with
        | nil => rfl
        | cons v vs =>
          have hvpos2 : 0 < v := hcpos v (by simp)
          simp only [List.sum_cons] at hcsum
          have hnn : 0 ≤ vs.sum := by positivity
          omega
  have hlen2 : (PokerEngine.countRanks (cards.map (·.rank))).length = 2 := by
    have hl := hperm.length_eq
    rw [hshape] at hl
    simpa using hl.symm
  -- the count table is a two-element list
  cases hrc : PokerEngine.countRanks (cards.map (·.rank)) with
  | nil => rw [hrc] at hlen2; simp at hlen2
  | cons a tl =>
    cases tl with
    | nil => rw [hrc] at hlen2; simp at hlen2
    | cons b tl2 =>
      cases tl2 with
      | cons x xs => rw [hrc] at hlen2; simp at hlen2
      | nil =>
        rw [hrc] at hperm hshape honest
        have hvals : List.Perm ([a.2, b.2] : List Nat) [3, 2] := by
          have h1 := (jsSort_perm (fun (a b : Nat) => (b : Int) - a)
            ([a, b].map (·.2))).symm
          rw [hshape] at h1
          simpa using h1
        have hsum2 : a.2 + b.2 = 5 := by
          have := hvals.sum_eq
          simpa using this
        have hmem : a.2 ∈ ([3, 2] : List Nat) := hvals.subset (by simp)
        obtain ⟨ra, ca⟩ := a
        obtain ⟨rb, cb⟩ := b
        simp only at hsum2 hmem
        have hca3 : ca = 3 ∨ ca = 2 := by simpa using hmem
        have hfa : (cards.filter (fun c => c.rank == ra)).length =
            ((cards.map (·.rank)).filter (· == ra)).length := filter_rank_len ra cards
        have hfb : (cards.filter (fun c => c.rank == rb)).length =
            ((cards.map (·.rank)).filter (· == rb)).length := filter_rank_len rb cards
        have hha := honest (ra, ca) (by simp)
        have hhb := honest (rb, cb) (by simp)
        simp only at hha hhb
        rcases hca3 with hca | hca
        · have hcb : cb = 2 := by omega
          subst hca
          subst hcb
          have hp := separate_pair32 cards ra rb
          refine ⟨?_, hp.2⟩
          rw [hp.1, hfa, hfb, ← hha, ← hhb]
        · have hcb : cb = 3 := by omega
          subst hca
          subst hcb
          have hp := separate_pair23 cards ra rb
          refine ⟨?_, hp.2⟩
          rw [hp.1, hfa, hfb, ← hha, ← hhb]

/-- On any 5-card input, `evaluateExactHand` succeeds and the resulting hand
carries exactly 5 ranked cards (primary plus kickers). -/
theorem evaluateExactHand_ok (cards : List Card) (h5 : cards.length = 5) :
    ∃ h, PokerEngine.evaluateExactHand cards = .ok h ∧ h.totalCards = 5 := by
  have hslen : (jsSort (fun a b => ((b.rank : Int)) - a.rank) cards).length = 5 := by
    rw [jsSort_length]; exact h5
  have hsep : ∀ tc : List Nat,
      (PokerEngine.separateCardsByRank
        (jsSort (fun a b => ((b.rank : Int)) - a.rank) cards)
        (PokerEngine.countRanks
          ((jsSort (fun a b => ((b.rank : Int)) - a.rank) cards).map (·.rank)))
        tc).1.length +
      (PokerEngine.separateCardsByRank
        (jsSort (fun a b => ((b.rank : Int)) - a.rank) cards)
        (PokerEngine.countRanks
          ((jsSort (fun a b => ((b.rank : Int)) - a.rank) cards).map (·.rank)))
        tc).2.length = 5 := by
    intro tc
    apply separate_total
    · exact countRanks_fst_nodup _
    · intro x hx
      exact countRanks_cover _ _ (List.mem_map_of_mem _ hx)
    · exact hslen
  have harr : (PokerEngine.arrangeWheelStraight
      (jsSort (fun a b => ((b.rank : Int)) - a.rank) cards)).length = 5 := by
    unfold PokerEngine.arrangeWheelStraight
    rw [jsSort_length]
    exact hslen
  unfold PokerEngine.evaluateExactHand
  rw [if_neg (by omega)]
  dsimp only
  split_ifs with hA hB hC hD hE hF hG hH hI hJ hK
  · exact ⟨_, rfl, by simp [Hand.totalCards, hslen]⟩
  · exact ⟨_, rfl, by simpa [Hand.totalCards] using harr⟩
  · exact ⟨_, rfl, by simp [Hand.totalCards, hslen]⟩
  · refine ⟨_, rfl, ?_⟩
    simp only [Hand.totalCards, List.length_append]
    exact hsep [4]
  · refine ⟨_, rfl, ?_⟩
    rw [Bool.and_eq_true, beq_iff_eq, beq_iff_eq] at hE
    simp only [Hand.totalCards, List.append_nil]
    exact (fullhouse_primary _ hslen hE.1 hE.2).1
  · exact ⟨_, rfl, by simp [Hand.totalCards, hslen]⟩
  · exact ⟨_, rfl, by simpa [Hand.totalCards] using harr⟩
  · exact ⟨_, rfl, by simp [Hand.totalCards, hslen]⟩
  · refine ⟨_, rfl, ?_⟩
    simp only [Hand.totalCards, List.length_append]
    exact hsep [3]
  · refine ⟨_, rfl, ?_⟩
    simp only [Hand.totalCards, List.length_append]
    exact hsep [2, 2]
  · refine ⟨_, rfl, ?_⟩
    simp only [Hand.totalCards, List.length_append]
    exact hsep [2]
  · exact ⟨_, rfl, by simp [Hand.totalCards, List.length_take, hslen]⟩

/-- The best-so-far loop of `evaluateHand` returns a hand from its input (or
the seed) that no evaluated hand strictly beats. -/
theorem evaluateHandLoop_spec :
    ∀ (cs : List (List Card)) (b : Hand),
      (∀ c ∈ cs, c.length = 5) → b.totalCards = 5 →
      ∃ best, PokerEngine.evaluateHandLoop cs (some b) = .ok (some best) ∧
        best.totalCards = 5 ∧
        (best = b ∨ ∃ c ∈ cs, PokerEngine.evaluateExactHand c = .ok best) ∧
        PokerEngine.compareHands b best ≤ 0 ∧
        ∀ c ∈ cs, ∀ hc, PokerEngine.evaluateExactHand c = .ok hc →
          PokerEngine.compareHands hc best ≤ 0 := by
  intro cs
  induction cs with
  | nil =>
    intro b _ hb
    refine ⟨b, rfl, hb, Or.inl rfl, le_of_eq (compareHands_self b), ?_⟩
    intro c hc
    simp at hc
  | cons c cs ih =>
    intro b hlen hb
    obtain ⟨hand, hhand, hhandt⟩ :=
      evaluateExactHand_ok c (hlen c (List.mem_cons_self c cs))
    unfold PokerEngine.evaluateHandLoop
    rw [hhand]
    show ∃ best, (if PokerEngine.compareHands hand b > 0 then
        PokerEngine.evaluateHandLoop cs (some hand)
      else PokerEngine.evaluateHandLoop cs (some b)) = .ok (some best) ∧ _
    by_cases hcmp : PokerEngine.compareHands hand b > 0
    · rw [if_pos hcmp]
      obtain ⟨best, hl, ht, horig, hble, hall⟩ :=
        ih hand (fun x hx => hlen x (List.mem_cons_of_mem _ hx)) hhandt
      refine ⟨best, hl, ht, ?_, ?_, ?_⟩
      · right
        rcases horig with rfl | ⟨c', hc', he'⟩
        · exact ⟨c, List.mem_cons_self c cs, hhand⟩
        · exact ⟨c', List.mem_cons_of_mem _ hc', he'⟩
      · have h1 : PokerEngine.compareHands b hand ≤ 0 := by
          rw [compareHands_antisymm]
          omega
        exact compareHands_trans b hand best hb hhandt ht h1 hble
      · intro c' hc' hcv hev
        rcases List.mem_cons.mp hc' with rfl | hmem
        · rw [hhand] at hev
          cases hev
          exact hble
        · exact hall c' hmem hcv hev
    · rw [if_neg hcmp]
      obtain ⟨best, hl, ht, horig, hble, hall⟩ :=
        ih b (fun x hx => hlen x (List.mem_cons_of_mem _ hx)) hb
      refine ⟨best, hl, ht, ?_, hble, ?_⟩
      · rcases horig with rfl | ⟨c', hc', he'⟩
        · exact Or.inl rfl
        · exact Or.inr ⟨c', List.mem_cons_of_mem _ hc', he'⟩
      · intro c' hc' hcv hev
        rcases List.mem_cons.mp hc' with rfl | hmem
        · rw [hhand] at hev
          cases hev
          have h1 : PokerEngine.compareHands hand b ≤ 0 := by omega
          exact compareHands_trans hand b best hhandt hb ht h1 hble
        · exact hall c' hmem hcv hev

/-- C10: `evaluateHand` throws for every input of fewer than 5 cards, and
accepts every input of 5 or more cards — the code enforces no 7-card upper
bound — returning the hand of one of the 5-card combinations that no other
combination's hand strictly beats. -/
theorem claim_C10 (cards : List Card) :
    (cards.length < 5 → ∃ msg, PokerEngine.evaluateHand cards = .error msg) ∧
    (5 ≤ cards.length → ∃ h, PokerEngine.evaluateHand cards = .ok h ∧
      (∃ c ∈ PokerEngine.getCombinations cards 5,
        PokerEngine.evaluateExactHand c = .ok h) ∧
      ∀ c ∈ PokerEngine.getCombinations cards 5, ∀ hc,
        PokerEngine.evaluateExactHand c = .ok hc →
        PokerEngine.compareHands hc h ≤ 0) := by
  constructor
  · intro hlt
    unfold PokerEngine.evaluateHand
    rw [if_pos hlt]
    exact ⟨_, rfl⟩
  · intro hge
    obtain ⟨hne, hlens⟩ := getCombinations_spec cards 5 (by omega) hge
    cases hcs : PokerEngine.getCombinations cards 5 with
    | nil => exact absurd hcs hne
    | cons c0 rest =>
      rw [hcs] at hlens
      obtain ⟨h0, hh0, hh0t⟩ :=
        evaluateExactHand_ok c0 (hlens c0 (List.mem_cons_self c0 rest))
      obtain ⟨best, hloop, hbt, horig, hble, hall⟩ :=
        evaluateHandLoop_spec rest h0
          (fun x hx => hlens x (List.mem_cons_of_mem _ hx)) hh0t
      have hloop0 : PokerEngine.evaluateHandLoop (c0 :: rest) none =
          .ok (some best) := by
        unfold PokerEngine.evaluateHandLoop
        rw [hh0]
        exact hloop
      refine ⟨best, ?_, ?_, ?_⟩
      · unfold PokerEngine.evaluateHand
        rw [if_neg (by omega), hcs, hloop0]
      · rcases horig with rfl | ⟨c', hc', he'⟩
        · exact ⟨c0, List.mem_cons_self c0 rest, hh0⟩
        · exact ⟨c', List.mem_cons_of_mem _ hc', he'⟩
      · intro c hcmem hc hev
        rcases List.mem_cons.mp hcmem with rfl | hmem
        · rw [hh0] at hev
          cases hev
          exact hble
        · exact hall c hmem hc hev

/-- C10 witness: an 8-card input (more than the spec's 7) is accepted with a
maximal hand, and the empty input is rejected. -/
theorem claim_C10_witness :
    (5 ≤ c10Cards.length) ∧
    (∃ h, PokerEngine.evaluateHand c10Cards = .ok h ∧
      (∃ c ∈ PokerEngine.getCombinations c10Cards 5,
        PokerEngine.evaluateExactHand c = .ok h) ∧
      ∀ c ∈ PokerEngine.getCombinations c10Cards 5, ∀ hc,
        PokerEngine.evaluateExactHand c = .ok hc →
        PokerEngine.compareHands hc h ≤ 0) ∧
    ([] : List Card).length < 5 ∧
    (∃ msg, PokerEngine.evaluateHand [] = .error msg) :=
  ⟨by decide, (claim_C10 c10Cards).2 (by decide), by decide,
    (claim_C10 []).1 (by decide)⟩

/-- C7 (counterexample): player 0 holds 10 chips against a call amount of 50;
the claim says they can still call for their remaining 10 chips, but
`processPlayerAction` rejects the call outright (and `getValidActions` does
not offer Call either), leaving the room unchanged. -/
theorem claim_C7_counterexample :
    GameManager.processPlayerAction c7Room c7Req =
      .error ("Insufficient chips to call", c7Room) ∧
    (c7Room.players.getD 0 default).chips <
      c7Room.gameState.currentBet - (c7Room.players.getD 0 default).currentBet ∧
    PlayerAction.call ∉ PokerEngine.getValidActions
      (c7Room.players.getD 0 default) c7Room.gameState.currentBet := by decide
